import Mathlib

set_option maxHeartbeats 1000000
set_option maxRecDepth 8000

/-!
Verification of the CrewAI app-generator repository against its
natural-language specification.

The development shallowly embeds the relevant Python source files:

* run_crewai.py        : validate_complete_app, run_crewai_development, main
* test_generated_app.py: test_file_structure, test_backend_startup,
                         generate_test_report, main
* post_generation_fixes.py : the fixer functions and their regex rewrites
* quickstart.py        : main (setup entry point)

File contents are embedded as lists of characters; the filesystem is
embedded either as a presence oracle (String → Bool) where only existence
matters, or as an explicit record of directories and files where fixers
read and rewrite contents.  Python regular-expression substitutions are
embedded as executable fuelled left-to-right scanners specialised to the
concrete patterns appearing in the source; the fuel equals the length of
the scanned list, which is always enough since every match consumes at
least one character.

The file is organised as definitions first, then theorems.
-/

namespace CrewAI

/-! ## Generic machinery: anchored matching and substring occurrence -/

/-- Boolean test that the first list is an initial segment of the second
(character-wise equality).  Used to embed anchored pattern matching. -/
def pfx : List Char → List Char → Bool
  | [], _ => true
  | _ :: _, [] => false
  | a :: as, b :: bs => a == b && pfx as bs

/-- Boolean test that the pattern occurs as a contiguous substring
at some position (this is Python's s1 in s2 on strings). -/
def occ (p : List Char) : List Char → Bool
  | [] => pfx p []
  | c :: cs => pfx p (c :: cs) || occ p cs

/-! ## Artifact Validator (run_crewai.py, validate_complete_app)
and the Smoke Test Harness file check (test_generated_app.py,
test_file_structure).  Only path existence is consulted, so the filesystem
is a presence oracle String → Bool. -/

/-- Critical ("core") files checked by validate_complete_app
(run_crewai.py lines 56-63); keys of the core_files dict in source order. -/
def core_files : List String :=
  ["docs/requirements.md", "docs/architecture.md", "backend/main.py",
   "backend/models.py", "backend/requirements.txt", "frontend/index.html"]

/-- Optional files checked by validate_complete_app
(run_crewai.py lines 66-70); reported when absent but never causing failure. -/
def optional_files : List String :=
  ["tests/test_backend.py", "frontend/styles/main.css", "frontend/js/app.js"]

/-- Files required by test_file_structure (test_generated_app.py lines
24-35), in source order. -/
def expected_files : List String :=
  ["backend/main.py", "backend/models.py", "backend/database.py",
   "backend/security.py", "backend/requirements.txt", "frontend/index.html",
   "frontend/styles/main.css", "frontend/js/app.js", "docs/requirements.md",
   "docs/architecture.md"]

/-- The four files test_file_structure requires beyond the validator's
critical set. -/
def harness_extra_files : List String :=
  ["backend/database.py", "backend/security.py", "frontend/styles/main.css",
   "frontend/js/app.js"]

/-- Embedding of validate_complete_app (run_crewai.py lines 51-109): collect
the core files whose path does not exist; return False iff that list is
nonempty.  Missing optional files are only reported, never affect the
result. -/
def validate_complete_app (e : String → Bool) : Bool :=
  let missing_core := core_files.filter (fun p => !(e p))
  missing_core.isEmpty

/-- Embedding of test_file_structure (test_generated_app.py lines 20-56):
collect the expected files whose path does not exist; return False iff that
list is nonempty. -/
def test_file_structure (e : String → Bool) : Bool :=
  let missing_files := expected_files.filter (fun p => !(e p))
  missing_files.isEmpty

/-! ## Smoke Test Harness backend startup check
(test_generated_app.py, test_backend_startup, lines 182-225). -/

/-- Outcome of the liveness probe requests.get on the /docs endpoint:
either an HTTP response with some status code, or a raised
requests.exceptions.RequestException (which covers both connection
failures and timeouts, Timeout being a RequestException subclass). -/
inductive ProbeOutcome where
  | status (code : Nat) : ProbeOutcome
  | requestFailed : ProbeOutcome
deriving DecidableEq

/-- Observable effects of one run of test_backend_startup: whether the
child backend process was spawned, whether process.terminate() was called
before returning, and the returned success flag. -/
structure StartupRun where
  spawned : Bool
  terminated : Bool
  success : Bool
deriving DecidableEq

/-- Embedding of test_backend_startup (test_generated_app.py lines
182-225).  If backend/main.py is absent the function returns False without
spawning.  Otherwise it spawns the server subprocess, probes the /docs
endpoint (status 200 → success, any other status → failure, raised
RequestException — connection error or timeout — → failure), and on every
one of those paths calls process.terminate() before returning. -/
def test_backend_startup (mainExists : Bool) (probe : ProbeOutcome) : StartupRun :=
  if !mainExists then
    { spawned := false, terminated := false, success := false }
  else
    let success :=
      match probe with
      | .status code => code == 200
      | .requestFailed => false
    { spawned := true, terminated := true, success := success }

/-! ## Smoke Test Harness report (test_generated_app.py,
generate_test_report, lines 227-268) and the entry points' exit codes. -/

/-- Outcome of invoking one test function: it returns a boolean, or it
raises an exception (caught by the per-test try/except in the report
loop). -/
inductive CheckOutcome where
  | ret (b : Bool) : CheckOutcome
  | raised : CheckOutcome
deriving DecidableEq

/-- The boolean recorded in results for one test outcome: the returned
value, or False when the test raised. -/
def recordCheck : CheckOutcome → Bool
  | .ret b => b
  | .raised => false

/-- Embedding of generate_test_report (test_generated_app.py lines
227-268).  The five tests are run one at a time, each wrapped in its own
try/except, so every test contributes an entry to results; the overall
verdict is passed == total.  The input associates each test name with the
outcome of invoking its function. -/
def generate_test_report (tests : List (String × CheckOutcome)) :
    List (String × Bool) × Bool :=
  let results := tests.map (fun t => (t.1, recordCheck t.2))
  let passed := (results.map Prod.snd).count true
  (results, passed == results.length)

/-- The five test names hard-coded in generate_test_report
(test_generated_app.py lines 231-237). -/
def harness_check_names : List String :=
  ["File Structure", "Python Syntax", "Backend Imports", "Frontend Files",
   "Backend Startup"]

/-- Embedding of test_generated_app.py main (lines 270-299): exit 1 when
not run from the project root, otherwise exit 0 iff the overall report
verdict is True. -/
def test_app_main_exit (inProjectRoot : Bool)
    (tests : List (String × CheckOutcome)) : Nat :=
  if !inProjectRoot then 1
  else if (generate_test_report tests).2 then 0 else 1

/-- Embedding of run_crewai_development's result (run_crewai.py lines
177-300) as far as exit codes are concerned: an import error returns None;
an exception raised during crew.kickoff (timeout or otherwise) is caught
and returns None; on normal completion the result is "complete_success"
iff validate_complete_app succeeds on the post-run filesystem, else None. -/
def run_crewai_development_result (importsOk : Bool) (kickoffRaises : Bool)
    (e : String → Bool) : Option String :=
  if !importsOk then none
  else if kickoffRaises then none
  else if validate_complete_app e then some "complete_success" else none

/-- Embedding of run_crewai.py main (lines 302-334): sys.exit(1) only when
validate_setup fails; after run_crewai_development both the
complete_success branch and the failure branch merely print and fall
through, so the process terminates with exit status 0. -/
def run_crewai_main_exit (setupOk importsOk kickoffRaises : Bool)
    (e : String → Bool) : Nat :=
  if !setupOk then 1
  else if run_crewai_development_result importsOk kickoffRaises e
      = some "complete_success" then 0
  else 0

/-- Embedding of quickstart.py main (lines 134-166): exit 1 when the
Python version check, the virtualenv creation, or the dependency
installation fails; setup_environment_file always returns True; the
API-key check only prints a warning; otherwise exit 0. -/
def quickstart_main_exit (pyOk venvOk depsOk : Bool) : Nat :=
  if !pyOk then 1
  else if !venvOk then 1
  else if !depsOk then 1
  else 0

/-! ## Pipeline Runner (spec sections 4.1 and 6).

Modelled from the spec: the per-task execution loop of the Pipeline Runner
is implemented inside the external crewai dependency (Crew.kickoff with
Process.sequential); run_crewai.py lines 202-251 only configure agents,
tasks and their context dependency lists and invoke it.  Following the
spec's words: tasks are executed one at a time in list order; each task's
context is its instruction text concatenated with the recorded outputs of
every task in its dependency list, in list order; the assigned agent is
invoked with that context and the returned output and success flag are
recorded; a timeout or retry-budget exhaustion is treated as task failure
(success = false), the task is marked failed and the runner continues with
later tasks. -/

/-- A Task Descriptor (spec section 3): instruction text, assigned agent,
and the ordered dependency list naming prior tasks whose outputs are
injected as context. -/
structure TaskDescriptor where
  name : String
  instruction : String
  agent : String
  deps : List String

/-- One entry of the Run Result (spec section 3): the task it belongs to,
the produced output text, and the success flag. -/
structure RunEntry where
  task : String
  output : String
  success : Bool

/-- Modelled from the spec: build a task's execution context by
concatenating the instruction text with the recorded outputs of every task
in its dependency list, in list order; a failed or missing dependency
contributes whatever output was recorded (possibly empty). -/
def contextOf (acc : List RunEntry) (t : TaskDescriptor) : String :=
  t.instruction ++ String.join (t.deps.map (fun d =>
    match acc.find? (fun r => r.task == d) with
    | some r => r.output
    | none => ""))

/-- Modelled from the spec: sequential execution loop of the Pipeline
Runner.  The invocation oracle stands for the generation call boundary
(spec section 6): given agent and context it returns output text and a
success flag; timeout/overload signals are treated as task failure, never
a fatal run error, so they appear as success = false. -/
def run_pipeline_aux (invoke : String → String → String × Bool)
    (acc : List RunEntry) : List TaskDescriptor → List RunEntry
  | [] => acc
  | t :: ts =>
    let res := invoke t.agent (contextOf acc t)
    run_pipeline_aux invoke (acc ++ [⟨t.name, res.1, res.2⟩]) ts

/-- Modelled from the spec: run the Pipeline Runner on an ordered task
list, starting from an empty Run Result. -/
def run_pipeline (invoke : String → String → String × Bool)
    (tasks : List TaskDescriptor) : List RunEntry :=
  run_pipeline_aux invoke [] tasks

/-! ## Non-trivial file classification
(post_generation_fixes.py, complete_incomplete_files, lines 212-240). -/

/-- Python str whitespace (ASCII): the characters stripped by str.strip()
and matched by the regex class in the sources at hand. -/
def isWS (c : Char) : Bool :=
  c == ' ' || c == '\t' || c == '\n' || c == '\r' || c == '\x0b' || c == '\x0c'

/-- Embedding of Python's str.strip(): remove leading and trailing
whitespace. -/
def pyStrip (s : List Char) : List Char :=
  ((s.dropWhile isWS).reverse.dropWhile isWS).reverse

/-- Embedding of the per-file incompleteness test of
complete_incomplete_files (post_generation_fixes.py lines 226-231): the
file is read, stripped, and flagged incomplete when the stripped content
has fewer than 100 characters or fewer than 5 line breaks. -/
def file_appears_incomplete (content : List Char) : Bool :=
  let c := pyStrip content
  decide (c.length < 100) || decide (c.count '\n' < 5)

/-- A present file is classified non-trivial iff it is not flagged
incomplete. -/
def nonTrivialFile (content : List Char) : Bool :=
  !(file_appears_incomplete content)

/-! ## Regex substitution scanners (post_generation_fixes.py)

Each Python re.sub / str.replace in the fixers is embedded as a fuelled
left-to-right scanner: at each position, a matcher either produces the
replacement text and the remainder after the (deterministically delimited)
match, or the head character is copied.  All patterns in the source have
the property that each greedy sub-expression is followed by a character
outside its class, so Python's backtracking regex semantics coincide with
the deterministic maximal-munch matchers below. -/

/-- Generic fuelled scanner: replace every leftmost non-overlapping match
produced by the matcher, scanning resumes after the matched region, the
replacement is not rescanned.  With fuel at least the list's length this is
exact, since every matcher consumes at least one character. -/
def scanF (m : List Char → Option (List Char × List Char)) :
    Nat → List Char → List Char
  | _, [] => []
  | 0, s => s
  | f + 1, c :: cs =>
    match m (c :: cs) with
    | some (repl, rest) => repl ++ scanF m f rest
    | none => c :: scanF m f cs

/-- A matcher fires at some position of the list. -/
def occM (m : List Char → Option (List Char × List Char)) : List Char → Bool
  | [] => (m []).isSome
  | c :: cs => (m (c :: cs)).isSome || occM m cs

/-- Run a scanner with fuel equal to the input length. -/
def runScan (m : List Char → Option (List Char × List Char))
    (s : List Char) : List Char :=
  scanF m s.length s

/-- Matcher for a literal pattern (also embeds Python str.replace). -/
def mLit (pat repl : List Char) (s : List Char) : Option (List Char × List Char) :=
  if pfx pat s then some (repl, s.drop pat.length) else none

/-- Python regex word class \w (ASCII fragment, as used by the sources). -/
def isWd (c : Char) : Bool := c.isAlphanum || c == '_'

/-- The character class written [^\\n] in the sources: it excludes the
backslash and the letter n (not the newline, which it accepts). -/
def notNB (c : Char) : Bool := !(c == 'n' || c == '\\')

/-- The character class [^)]. -/
def notRP (c : Char) : Bool := !(c == ')')

/-- Literal pattern regex= of fix_pydantic_syntax (line 114). -/
def patRegexEq : List Char := ['r', 'e', 'g', 'e', 'x', '=']

/-- Replacement pattern= of fix_pydantic_syntax (line 114). -/
def replPatternEq : List Char := ['p', 'a', 't', 't', 'e', 'r', 'n', '=']

/-- Leading literal of the Config-class pattern of fix_pydantic_syntax
(line 117): class Config:. -/
def lit1B : List Char := ['c', 'l', 'a', 's', 's', ' ', 'C', 'o', 'n', 'f', 'i', 'g', ':']

/-- Trailing literal of the Config-class pattern (line 117):
orm_mode = True. -/
def lit2B : List Char := ['o', 'r', 'm', '_', 'm', 'o', 'd', 'e', ' ', '=', ' ', 'T', 'r', 'u', 'e']

/-- Replacement of the Config-class substitution (lines 117-118):
class Config:, newline, eight spaces, from_attributes = True. -/
def replB : List Char :=
  lit1B ++ '\n' :: ([' ', ' ', ' ', ' ', ' ', ' ', ' ', ' '] ++
    ['f', 'r', 'o', 'm', '_', 'a', 't', 't', 'r', 'i', 'b', 'u', 't', 'e', 's',
     ' ', '=', ' ', 'T', 'r', 'u', 'e'])

/-- Matcher for the pattern class Config:\s*\n\s*orm_mode = True
(line 117).  The whitespace run is maximal because the trailing literal
starts with a non-whitespace character, so greedy matching with
backtracking reduces to: take the maximal whitespace run after the leading
literal, require it to contain a newline, require the trailing literal
immediately after it. -/
def mB (s : List Char) : Option (List Char × List Char) :=
  if pfx lit1B s then
    let rest := s.drop 13
    let z := rest.takeWhile isWS
    let w := rest.dropWhile isWS
    if z.contains '\n' && pfx lit2B w then some (replB, w.drop 15) else none
  else none

/-- Literal from pydantic import with trailing space (pattern of line
122). -/
def litPydImp : List Char := "from pydantic import ".toList

/-- Gate substring from pydantic import (no trailing space) tested by
the condition on line 121. -/
def gatePyd : List Char := "from pydantic import".toList

/-- The insertion appended to the captured group by the replacement of
line 123: comma, space, Field. -/
def fieldIns : List Char := [',', ' ', 'F', 'i', 'e', 'l', 'd']

/-- The substring Field tested by the condition on line 121. -/
def fieldStr : List Char := ['F', 'i', 'e', 'l', 'd']

/-- Matcher for from pydantic import ([^\\n]+) (line 122) with
replacement from pydantic import \1, Field (line 123).  The capture is
the maximal nonempty run of characters in the class. -/
def mC (s : List Char) : Option (List Char × List Char) :=
  if pfx litPydImp s then
    let rest := s.drop 21
    let cap := rest.takeWhile notNB
    if cap.isEmpty then none
    else some (litPydImp ++ cap ++ fieldIns, rest.dropWhile notNB)
  else none

/-- Literal from fastapi import with trailing space (pattern of line
153). -/
def litFapiImp : List Char := "from fastapi import ".toList

/-- Gate substring from fastapi import tested on line 152. -/
def gateFapi : List Char := "from fastapi import".toList

/-- The import line inserted by the replacement of lines 153-155. -/
def corsImportLine : List Char :=
  "from fastapi.middleware.cors import CORSMiddleware".toList

/-- The substring CORSMiddleware tested on line 147. -/
def corsK : List Char := "CORSMiddleware".toList

/-- Matcher for from fastapi import ([^\\n]+) (lines 153-155) with
replacement appending a newline and the CORS import line. -/
def mI (s : List Char) : Option (List Char × List Char) :=
  if pfx litFapiImp s then
    let rest := s.drop 20
    let cap := rest.takeWhile notNB
    if cap.isEmpty then none
    else some (litFapiImp ++ cap ++ '\n' :: corsImportLine, rest.dropWhile notNB)
  else none

/-- Literal app = FastAPI( opening the pattern of line 169, and the gate
substring tested on line 158. -/
def litAppFast : List Char := "app = FastAPI(".toList

/-- The cors_config block (lines 159-168) appended after the matched
app = FastAPI(...) by the replacement \1\n + cors_config (lines
169-170); it begins with the newline from the replacement template. -/
def corsConfigIns : List Char :=
  ('\n' :: "\n# Add CORS middleware\napp.add_middleware(\n    CORSMiddleware,\n    allow_origins=[\"*\"],  # In production, specify your frontend domain\n    allow_credentials=True,\n    allow_methods=[\"*\"],\n    allow_headers=[\"*\"],\n)\n".toList)

/-- Matcher for (app = FastAPI\([^)]*\)) (line 169): the bracket run is
the maximal run of non-parenthesis characters and must be followed by a
closing parenthesis. -/
def mG (s : List Char) : Option (List Char × List Char) :=
  if pfx litAppFast s then
    let rest := s.drop 14
    let run := rest.takeWhile notRP
    let w := rest.dropWhile notRP
    if pfx [')'] w then
      some (litAppFast ++ run ++ ')' :: corsConfigIns, w.drop 1)
    else none
  else none

/-- Literal from . opening both import patterns of lines 81-82. -/
def litFromDot : List Char := "from .".toList

/-- Literal from opening the replacements of lines 81-82. -/
def litFromSp : List Char := "from ".toList

/-- Literal space-import closing the import patterns of lines 81-82. -/
def litSpImp : List Char := " import".toList

/-- Matcher for from \.(\w+) import (line 81) with replacement
from \1 import.  The word run is maximal (the following literal starts
with a space, outside \w) and must be nonempty. -/
def m1 (s : List Char) : Option (List Char × List Char) :=
  if pfx litFromDot s then
    let rest := s.drop 6
    let w := rest.takeWhile isWd
    let r1 := rest.dropWhile isWd
    if !w.isEmpty && pfx litSpImp r1 then
      some (litFromSp ++ w ++ litSpImp, r1.drop 7)
    else none
  else none

/-- Matcher for from \.(\w+)\.(\w+) import (line 82) with replacement
from \1.\2 import. -/
def m2 (s : List Char) : Option (List Char × List Char) :=
  if pfx litFromDot s then
    let rest := s.drop 6
    let w1 := rest.takeWhile isWd
    let r1 := rest.dropWhile isWd
    if !w1.isEmpty && pfx ['.'] r1 then
      let r2 := r1.drop 1
      let w2 := r2.takeWhile isWd
      let r3 := r2.dropWhile isWd
      if !w2.isEmpty && pfx litSpImp r3 then
        some (litFromSp ++ w1 ++ '.' :: w2 ++ litSpImp, r3.drop 7)
      else none
    else none
  else none

/-! ## Fixer content transformers (post_generation_fixes.py) -/

/-- The nine essential packages written by fix_backend_requirements
(lines 36-46), in source order. -/
def essential_packages : List String :=
  ["fastapi>=0.100.0", "uvicorn>=0.23.0", "sqlalchemy>=2.0.0",
   "pydantic>=2.0.0", "python-jose>=3.3.0", "passlib>=1.7.4",
   "bcrypt>=4.0.0", "python-multipart>=0.0.6", "email-validator>=2.0.0"]

/-- The header comment written by fix_backend_requirements (line 50). -/
def requirements_header : String :=
  "# Backend dependencies for Task Management App\n"

/-- The full text written to backend/requirements.txt by
fix_backend_requirements (lines 48-52): the header comment followed by one
line per essential package. -/
def essentialRequirementsText : List Char :=
  (requirements_header ++
    String.join (essential_packages.map (fun p => p ++ "\n"))).toList

/-- Content transformer of fix_backend_requirements (lines 18-55).  Lines
27-33 read the current content and strip sqlite3 entries from it, but the
transformed value is discarded: the write on lines 48-52 emits exactly the
header comment and the nine essential package lines, so the resulting file
content is this fixed text, independent of the prior content. -/
def fix_backend_requirements_content (_X : List Char) : List Char :=
  essentialRequirementsText

/-- Content transformer of fix_backend_imports (lines 70-93) on one file:
the two regex substitutions of lines 81-82 followed by the three literal
replacements of lines 85-87. -/
def fix_backend_imports_content (X : List Char) : List Char :=
  let c1 := runScan m1 X
  let c2 := runScan m2 c1
  let c3 := runScan (mLit "from .database import".toList "from database import".toList) c2
  let c4 := runScan (mLit "from .models import".toList "from models import".toList) c3
  runScan (mLit "from .security import".toList "from security import".toList) c4

/-- Content transformer of fix_pydantic_syntax (lines 99-132, source name
fix_pydantic_syntax): the regex= substitution (line 114), the Config-class
substitution (lines 117-118), then — only when the file mentions
from pydantic import and does not mention Field (line 121) — the
Field-appending substitution (lines 122-123). -/
def fix_pydantic_v2_content (X : List Char) : List Char :=
  let c1 := runScan (mLit patRegexEq replPatternEq) X
  let c2 := runScan mB c1
  if occ gatePyd c2 && !(occ fieldStr c2) then runScan mC c2 else c2

/-- Content transformer of add_cors_middleware (lines 134-178).  When the
file already mentions CORSMiddleware it is returned unchanged (line 147).
Otherwise the import substitution runs when the file mentions
from fastapi import (lines 152-155); then, only when the current text
contains app = FastAPI( is the CORS block substitution applied and the
file written (lines 158-175) — when that gate fails the function returns
False without writing, so the file keeps its original content (lines
177-178). -/
def add_cors_middleware_content (X : List Char) : List Char :=
  if occ corsK X then X
  else
    let c1 := if occ gateFapi X then runScan mI X else X
    if occ litAppFast c1 then runScan mG c1 else X

/-- The full text of the backend run script written by create_run_script
(lines 278-301). -/
def run_script_text : List Char :=
  ("#!/usr/bin/env python3\n\"\"\"\nSimple script to run the Task Management backend\n\"\"\"\n\nimport uvicorn\nimport os\n\nif __name__ == \"__main__\":\n    # Ensure we're in the backend directory\n    os.chdir(os.path.dirname(os.path.abspath(__file__)))\n    \n    print(\"🚀 Starting Task Management API...\")\n    print(\"📍 API will be available at: http://localhost:8000\")\n    print(\"📚 API docs will be available at: http://localhost:8000/docs\")\n    print(\"🛑 Press Ctrl+C to stop\")\n    \n    uvicorn.run(\n        \"main:app\",\n        host=\"0.0.0.0\",\n        port=8000,\n        reload=True\n    )\n").toList

/-- Content transformer of create_run_script (lines 274-310): the file
backend/run.py is written with the fixed script text, whatever it
contained before. -/
def create_run_script_content (_X : List Char) : List Char :=
  run_script_text

/-! ## Filesystem-level fixers (post_generation_fixes.py)

The filesystem is a record of existing directories and files with
contents.  Each fixer returns Except Unit (PyFS × Bool): ok pairs the
resulting filesystem with the fixer's reported boolean, error stands for
an uncaught Python exception (here only FileNotFoundError from opening a
path for writing under a missing directory). -/

/-- A filesystem: the directories that exist and the files with their
contents. -/
structure PyFS where
  dirs : List String
  files : List (String × List Char)
deriving DecidableEq

/-- Read a file if it exists. -/
def readFile (fs : PyFS) (p : String) : Option (List Char) :=
  (fs.files.find? (fun kv => kv.1 == p)).map Prod.snd

/-- Write (create or overwrite) a file. -/
def writeFile (fs : PyFS) (p : String) (c : List Char) : PyFS :=
  { fs with files := (p, c) :: fs.files.filter (fun kv => !(kv.1 == p)) }

/-- Embedding of fix_backend_requirements (lines 18-55) on the
filesystem: skip with False when backend/requirements.txt is absent,
otherwise rewrite it with the fixed text and report True. -/
def fix_backend_requirements (fs : PyFS) : Except Unit (PyFS × Bool) :=
  match readFile fs "backend/requirements.txt" with
  | none => .ok (fs, false)
  | some content =>
    .ok (writeFile fs "backend/requirements.txt"
      (fix_backend_requirements_content content), true)

/-- One iteration of the fix_backend_imports loop (lines 70-95): skip an
absent file; rewrite a present file only when the transformation changed
it, counting the applied fix. -/
def fixImportsOne (acc : PyFS × Nat) (p : String) : PyFS × Nat :=
  match readFile acc.1 p with
  | none => acc
  | some c =>
    let c2 := fix_backend_imports_content c
    if c2 = c then acc else (writeFile acc.1 p c2, acc.2 + 1)

/-- Embedding of fix_backend_imports (lines 57-97): iterate over the four
backend files in source order; report whether any fix was applied. -/
def fix_backend_imports (fs : PyFS) : Except Unit (PyFS × Bool) :=
  let r := ["backend/main.py", "backend/security.py", "backend/models.py",
    "backend/database.py"].foldl fixImportsOne (fs, 0)
  .ok (r.1, decide (0 < r.2))

/-- Embedding of fix_pydantic_syntax (lines 99-132) on the filesystem:
skip with False when backend/models.py is absent; otherwise rewrite it
when the transformation changed it (True), else report False. -/
def fix_pydantic_v2 (fs : PyFS) : Except Unit (PyFS × Bool) :=
  match readFile fs "backend/models.py" with
  | none => .ok (fs, false)
  | some c =>
    let c2 := fix_pydantic_v2_content c
    if c2 = c then .ok (fs, false)
    else .ok (writeFile fs "backend/models.py" c2, true)

/-- Embedding of add_cors_middleware (lines 134-178) on the filesystem:
skip with False when backend/main.py is absent; return True without
writing when CORSMiddleware is already present; write and return True
when the app = FastAPI( gate holds after the import substitution;
otherwise return False without writing. -/
def add_cors_middleware (fs : PyFS) : Except Unit (PyFS × Bool) :=
  match readFile fs "backend/main.py" with
  | none => .ok (fs, false)
  | some c =>
    if occ corsK c then .ok (fs, true)
    else
      let c1 := if occ gateFapi c then runScan mI c else c
      if occ litAppFast c1 then
        .ok (writeFile fs "backend/main.py" (runScan mG c1), true)
      else .ok (fs, false)

/-- The marker class User(Base): tested by fix_database_models
(line 195). -/
def userClassMarker : List Char := "class User(Base):".toList

/-- The marker Base = declarative_base() tested by fix_database_models
(line 205). -/
def declBaseMarker : List Char := "Base = declarative_base()".toList

/-- Embedding of fix_database_models (lines 180-210): never writes; skip
with False when backend/models.py is absent; False when the User model
marker is missing; when backend/database.py exists, False when the Base
marker is missing there; True otherwise. -/
def fix_database_models (fs : PyFS) : Except Unit (PyFS × Bool) :=
  match readFile fs "backend/models.py" with
  | none => .ok (fs, false)
  | some mc =>
    if !(occ userClassMarker mc) then .ok (fs, false)
    else
      match readFile fs "backend/database.py" with
      | some dbc =>
        if !(occ declBaseMarker dbc) then .ok (fs, false) else .ok (fs, true)
      | none => .ok (fs, true)

/-- Embedding of complete_incomplete_files (lines 212-240): never writes;
collect the present candidate files whose stripped content is shorter than
100 characters or has fewer than 5 line breaks; report True iff none was
collected (in particular True when no candidate file exists). -/
def complete_incomplete_files (fs : PyFS) : Except Unit (PyFS × Bool) :=
  let incomplete :=
    ["frontend/index.html", "backend/main.py", "backend/models.py"].filter
      (fun p =>
        match readFile fs p with
        | some c => file_appears_incomplete c
        | none => false)
  .ok (fs, incomplete.isEmpty)

/-- Embedding of install_backend_dependencies (lines 242-272): never
writes project files; skip with False when backend/requirements.txt is
absent; False when no virtual environment is active; otherwise report
whether the pip subprocess succeeded. -/
def install_backend_dependencies (venvActive pipOk : Bool) (fs : PyFS) :
    Except Unit (PyFS × Bool) :=
  match readFile fs "backend/requirements.txt" with
  | none => .ok (fs, false)
  | some _ =>
    if !venvActive then .ok (fs, false)
    else .ok (fs, pipOk)

/-- Embedding of create_run_script (lines 274-310): unconditionally opens
backend/run.py for writing and writes the fixed script text, reporting
True.  When the backend directory does not exist the open raises
FileNotFoundError, embedded as error. -/
def create_run_script (fs : PyFS) : Except Unit (PyFS × Bool) :=
  if fs.dirs.contains "backend" then
    .ok (writeFile fs "backend/run.py" run_script_text, true)
  else .error ()

/-- Embedding of post_generation_fixes.py main (lines 312-369): run the
fixers in source order, collecting their reported booleans; any uncaught
exception aborts the run. -/
def run_post_generation_fixes (venvActive pipOk : Bool) (fs : PyFS) :
    Except Unit (PyFS × List Bool) := do
  let r1 ← fix_backend_requirements fs
  let r2 ← fix_backend_imports r1.1
  let r3 ← fix_pydantic_v2 r2.1
  let r4 ← add_cors_middleware r3.1
  let r5 ← fix_database_models r4.1
  let r6 ← complete_incomplete_files r5.1
  let r7 ← create_run_script r6.1
  let r8 ← install_backend_dependencies venvActive pipOk r7.1
  .ok (r8.1, [r1.2, r2.2, r3.2, r4.2, r5.2, r6.2, r7.2, r8.2])

/-- Exit status of the repair script: main has no sys.exit call, so the
process exits 0 whenever main returns (regardless of the fixers' reported
booleans), and exits 1 only when a fixer raises an uncaught exception. -/
def post_generation_fixes_main_exit (venvActive pipOk : Bool) (fs : PyFS) :
    Nat :=
  match run_post_generation_fixes venvActive pipOk fs with
  | .ok _ => 0
  | .error _ => 1

/-- Auxiliary two-character blocking predicate: no suffix of the list can
begin a match against a text whose first two characters are h1, h2 — every
suffix either avoids h1 at its head or avoids h2 right after, and a
trailing lone h1 is also excluded.  Used to show that partial pattern
matches can never continue into a scanner replacement. -/
def blocks2 (h1 h2 : Char) : List Char → Bool
  | [] => true
  | [a] => !(a == h1)
  | a :: b :: r => !(a == h1 && b == h2) && blocks2 h1 h2 (b :: r)

/-! # Theorems -/

/-! ## Prefix and occurrence lemmas -/

@[simp] theorem pfx_nil (l : List Char) : pfx [] l = true := by
  cases l <;> rfl

@[simp] theorem pfx_cons_nil (a : Char) (as : List Char) :
    pfx (a :: as) [] = false := rfl

@[simp] theorem pfx_cons_cons (a b : Char) (as bs : List Char) :
    pfx (a :: as) (b :: bs) = (a == b && pfx as bs) := rfl

theorem pfx_iff_append (p s : List Char) : pfx p s = true ↔ ∃ r, s = p ++ r := by
  induction p generalizing s with
  | nil => simp
  | cons a as ih =>
    cases s with
    | nil => simp
    | cons b bs =>
      simp only [pfx_cons_cons, Bool.and_eq_true, beq_iff_eq, ih, List.cons_append,
        List.cons.injEq]
      constructor
      · rintro ⟨rfl, r, rfl⟩; exact ⟨r, rfl, rfl⟩
      · rintro ⟨r, rfl, rfl⟩; exact ⟨rfl, r, rfl⟩

theorem pfx_self_append (v r : List Char) : pfx v (v ++ r) = true := by
  rw [pfx_iff_append]; exact ⟨r, rfl⟩

theorem pfx_append_of_le (p u w : List Char) (h : p.length ≤ u.length) :
    pfx p (u ++ w) = pfx p u := by
  induction p generalizing u with
  | nil => simp
  | cons a as ih =>
    cases u with
    | nil => simp at h
    | cons b bs =>
      simp only [List.cons_append, pfx_cons_cons]
      rw [ih bs (by simpa using Nat.le_of_succ_le_succ h)]

theorem pfx_append_split (p u w : List Char) (h : u.length < p.length)
    (hp : pfx p (u ++ w) = true) :
    (∃ p2, p = u ++ p2 ∧ p2 ≠ [] ∧ pfx p2 w = true) := by
  induction u generalizing p with
  | nil =>
    refine ⟨p, rfl, ?_, hp⟩
    intro hnil; rw [hnil] at h; simp at h
  | cons b bs ih =>
    cases p with
    | nil => simp at h
    | cons a as =>
      simp only [List.cons_append, pfx_cons_cons, Bool.and_eq_true, beq_iff_eq] at hp
      obtain ⟨rfl, hp2⟩ := hp
      obtain ⟨p2, hp2eq, hne, hw⟩ := ih as (by simpa using Nat.lt_of_succ_lt_succ h) hp2
      exact ⟨p2, by rw [hp2eq]; rfl, hne, hw⟩

@[simp] theorem occ_nil (p : List Char) : occ p [] = pfx p [] := rfl

@[simp] theorem occ_cons (p : List Char) (c : Char) (cs : List Char) :
    occ p (c :: cs) = (pfx p (c :: cs) || occ p cs) := rfl

theorem occ_append_right (p u w : List Char) (h : occ p w = true) :
    occ p (u ++ w) = true := by
  induction u with
  | nil => simpa using h
  | cons b bs ih => simp [ih]

theorem occ_of_pfx (p s : List Char) (h : pfx p s = true) : occ p s = true := by
  cases s with
  | nil => simpa using h
  | cons c cs => simp [h]

/-- Occurrence in an appended list splits into an occurrence that starts in
the left part (at some nonempty suffix of it) or an occurrence wholly in
the right part. -/
theorem occ_append_iff (p u w : List Char) :
    occ p (u ++ w) = true ↔
      (∃ s, s ≠ [] ∧ s.IsSuffix u ∧ pfx p (s ++ w) = true) ∨ occ p w = true := by
  induction u with
  | nil =>
    simp only [List.nil_append]
    constructor
    · intro h; exact Or.inr h
    · rintro (⟨s, hne, hsuf, _⟩ | h)
      · exact absurd (List.suffix_nil.mp hsuf) hne
      · exact h
  | cons b bs ih =>
    simp only [List.cons_append, occ_cons, Bool.or_eq_true, ih]
    constructor
    · rintro (h | ⟨s, hne, hsuf, hp⟩ | h)
      · exact Or.inl ⟨b :: bs, by simp, List.suffix_refl _, h⟩
      · exact Or.inl ⟨s, hne, hsuf.trans (List.suffix_cons b bs), hp⟩
      · exact Or.inr h
    · rintro (⟨s, hne, hsuf, hp⟩ | h)
      · rcases List.suffix_cons_iff.mp hsuf with rfl | hsuf2
        · exact Or.inl hp
        · exact Or.inr (Or.inl ⟨s, hne, hsuf2, hp⟩)
      · exact Or.inr (Or.inr h)

theorem occ_append_none_right (p u w : List Char) (h : occ p (u ++ w) = false) :
    occ p w = false := by
  by_contra hc
  rw [occ_append_right p u w (by revert hc; cases occ p w <;> simp)] at h
  simp at h

theorem pfx_length_le (p s : List Char) (h : pfx p s = true) :
    p.length ≤ s.length := by
  obtain ⟨r, rfl⟩ := (pfx_iff_append p s).mp h
  simp

theorem occ_append_left (p u w : List Char) (h : occ p u = true) :
    occ p (u ++ w) = true := by
  induction u with
  | nil =>
    simp only [occ_nil] at h
    exact occ_of_pfx p w (by cases p <;> simp_all)
  | cons b bs ih =>
    simp only [occ_cons, Bool.or_eq_true] at h
    rcases h with h | h
    · refine occ_of_pfx _ _ ?_
      rw [show (b :: bs) ++ w = (b :: bs) ++ w from rfl,
        pfx_append_of_le p (b :: bs) w (pfx_length_le p (b :: bs) h)]
      exact h
    · simp only [List.cons_append, occ_cons]
      rw [ih h]
      simp

theorem filter_not_isEmpty_eq_all (e : String → Bool) (l : List String) :
    (l.filter (fun p => !(e p))).isEmpty = l.all e := by
  induction l with
  | nil => rfl
  | cons a as ih =>
    by_cases h : e a = true
    · simp [List.filter_cons, h, ih]
    · simp only [Bool.not_eq_true] at h
      simp [List.filter_cons, h]

/-! ## Generic scanner lemmas -/

theorem pfx_cons_ne (a b : Char) (v u : List Char) (h : a ≠ b) :
    pfx (a :: v) (b :: u) = false := by
  simp [pfx_cons_cons, h]

theorem occM_cons (m : List Char → Option (List Char × List Char))
    (c : Char) (cs : List Char) :
    occM m (c :: cs) = ((m (c :: cs)).isSome || occM m cs) := rfl

/-- A match of the matcher inside an appended list either starts at a
nonempty suffix of the left part or lies wholly in the right part. -/
theorem occM_append_iff (m : List Char → Option (List Char × List Char))
    (u w : List Char) :
    occM m (u ++ w) = true ↔
      (∃ s, s ≠ [] ∧ s.IsSuffix u ∧ (m (s ++ w)).isSome = true) ∨
        occM m w = true := by
  induction u with
  | nil =>
    simp only [List.nil_append]
    constructor
    · intro h; exact Or.inr h
    · rintro (⟨s, hne, hsuf, _⟩ | h)
      · exact absurd (List.suffix_nil.mp hsuf) hne
      · exact h
  | cons b bs ih =>
    simp only [List.cons_append, occM_cons, Bool.or_eq_true, ih]
    constructor
    · rintro (h | ⟨s, hne, hsuf, hp⟩ | h)
      · exact Or.inl ⟨b :: bs, by simp, List.suffix_refl _, h⟩
      · exact Or.inl ⟨s, hne, hsuf.trans (List.suffix_cons b bs), hp⟩
      · exact Or.inr h
    · rintro (⟨s, hne, hsuf, hp⟩ | h)
      · rcases List.suffix_cons_iff.mp hsuf with rfl | hsuf2
        · exact Or.inl hp
        · exact Or.inr (Or.inl ⟨s, hne, hsuf2, hp⟩)
      · exact Or.inr (Or.inr h)

theorem occM_append_none_right (m : List Char → Option (List Char × List Char))
    (u w : List Char) (h : occM m (u ++ w) = false) : occM m w = false := by
  by_contra hc
  have : occM m (u ++ w) = true :=
    (occM_append_iff m u w).mpr (Or.inr (by revert hc; cases occM m w <;> simp))
  rw [this] at h; simp at h

theorem scanF_cons_some (m : List Char → Option (List Char × List Char))
    (f : Nat) (c : Char) (cs rp rs : List Char)
    (h : m (c :: cs) = some (rp, rs)) :
    scanF m (f + 1) (c :: cs) = rp ++ scanF m f rs := by
  simp [scanF, h]

theorem scanF_cons_none (m : List Char → Option (List Char × List Char))
    (f : Nat) (c : Char) (cs : List Char) (h : m (c :: cs) = none) :
    scanF m (f + 1) (c :: cs) = c :: scanF m f cs := by
  simp [scanF, h]

/-- When the matcher fires nowhere, the scanner copies its input whatever
the fuel. -/
theorem scanF_id (m : List Char → Option (List Char × List Char)) :
    ∀ (f : Nat) (s : List Char), occM m s = false → scanF m f s = s := by
  intro f
  induction f with
  | zero => intro s _; cases s <;> rfl
  | succ f ih =>
    intro s h
    cases s with
    | nil => rfl
    | cons c cs =>
      simp only [occM, Bool.or_eq_false_iff] at h
      obtain ⟨h1, h2⟩ := h
      cases hm : m (c :: cs) with
      | some pr => rw [hm] at h1; simp at h1
      | none => rw [scanF_cons_none m f c cs hm, ih cs h2]

/-- Prefix transport out of a scanner: any prefix demand whose suffixes
can never continue into a replacement produced by the matcher was already
a prefix of the unscanned input. -/
theorem scanF_transport (m : List Char → Option (List Char × List Char)) :
    ∀ (f : Nat) (t v r : List Char),
      (∀ c cs rp rs, m (c :: cs) = some (rp, rs) →
        ∀ v2 ∈ v.tails, v2 ≠ [] → ∀ w, pfx v2 (rp ++ w) = false) →
      scanF m f t = v ++ r → ∃ r2, t = v ++ r2 := by
  intro f
  induction f with
  | zero =>
    intro t v r _ heq
    cases t with
    | nil =>
      simp only [scanF] at heq
      have hv : v = [] := by
        cases v with
        | nil => rfl
        | cons a as => simp at heq
      exact ⟨[], by rw [hv]; rfl⟩
    | cons c cs => exact ⟨r, by rw [← heq]; rfl⟩
  | succ f ih =>
    intro t v r hblock heq
    cases t with
    | nil =>
      simp only [scanF] at heq
      have hv : v = [] := by
        cases v with
        | nil => rfl
        | cons a as => simp at heq
      exact ⟨[], by rw [hv]; rfl⟩
    | cons c cs =>
      cases hm : m (c :: cs) with
      | some pr =>
        obtain ⟨rp, rs⟩ := pr
        rw [scanF_cons_some m f c cs rp rs hm] at heq
        cases v with
        | nil => exact ⟨c :: cs, rfl⟩
        | cons v0 v1 =>
          exfalso
          have hself : pfx (v0 :: v1) ((v0 :: v1) ++ r) = true :=
            pfx_self_append _ _
          rw [← heq] at hself
          have hfalse := hblock c cs rp rs hm (v0 :: v1)
            ((List.mem_tails _ _).mpr (List.suffix_refl _)) (by simp)
            (scanF m f rs)
          rw [hfalse] at hself
          simp at hself
      | none =>
        rw [scanF_cons_none m f c cs hm] at heq
        cases v with
        | nil => exact ⟨c :: cs, rfl⟩
        | cons v0 v1 =>
          simp only [List.cons_append, List.cons.injEq] at heq
          obtain ⟨rfl, heq2⟩ := heq
          obtain ⟨r2, hr2⟩ := ih cs v1 r
            (by
              intro c' cs' rp rs hm' v2 hv2 hne w
              refine hblock c' cs' rp rs hm' v2 ?_ hne w
              rw [List.mem_tails] at hv2 ⊢
              exact hv2.trans (List.suffix_cons c v1))
            heq2
          exact ⟨r2, by rw [hr2]; rfl⟩

/-- When every replacement the matcher can produce contains the key as a
substring, a scan either copies its input or contains the key. -/
theorem scanF_const_or_contains (m : List Char → Option (List Char × List Char))
    (K : List Char)
    (hK : ∀ c cs rp rs, m (c :: cs) = some (rp, rs) → occ K rp = true) :
    ∀ (f : Nat) (s : List Char),
      scanF m f s = s ∨ occ K (scanF m f s) = true := by
  intro f
  induction f with
  | zero => intro s; cases s <;> exact Or.inl rfl
  | succ f ih =>
    intro s
    cases s with
    | nil => exact Or.inl rfl
    | cons c cs =>
      cases hm : m (c :: cs) with
      | some pr =>
        obtain ⟨rp, rs⟩ := pr
        rw [scanF_cons_some m f c cs rp rs hm]
        exact Or.inr (occ_append_left K rp _ (hK c cs rp rs hm))
      | none =>
        rw [scanF_cons_none m f c cs hm]
        rcases ih cs with h | h
        · exact Or.inl (by rw [h])
        · exact Or.inr (by simp [h])

/-- Occurrences of a literal pattern across a concrete left block reduce
to occurrences in the right part when no suffix of the block can begin a
match (the side conditions are decidable for concrete pattern and
block). -/
theorem occ_concat_split_false (p R T : List Char)
    (h1 : ∀ s' ∈ R.tails, pfx p s' = false)
    (h2 : ∀ s' ∈ R.tails, s' ≠ [] → s'.length < p.length →
      p.take s'.length ≠ s') :
    occ p (R ++ T) = occ p T := by
  cases hocc : occ p T with
  | true => exact occ_append_right p R T hocc
  | false =>
    by_contra hcon
    have htrue : occ p (R ++ T) = true := by
      revert hcon; cases occ p (R ++ T) <;> simp
    rcases (occ_append_iff p R T).mp htrue with ⟨s', hne, hsuf, hp⟩ | h
    · have hmem : s' ∈ R.tails := by
        rw [List.mem_tails]; exact hsuf
      rcases le_or_lt p.length s'.length with hge | hlt
      · rw [pfx_append_of_le p s' T hge] at hp
        rw [h1 s' hmem] at hp; simp at hp
      · obtain ⟨p2, hpeq, _, _⟩ := pfx_append_split p s' T hlt hp
        exact h2 s' hmem hne hlt (by rw [hpeq, List.take_left])
    · rw [hocc] at h; simp at h

/-- The matcher of a literal pattern fires exactly where the pattern is a
prefix. -/
theorem occM_mLit (pat repl : List Char) (s : List Char) :
    occM (mLit pat repl) s = occ pat s := by
  induction s with
  | nil => simp [occM, occ_nil, mLit]; cases hp : pfx pat [] <;> simp
  | cons c cs ih =>
    simp only [occM, occ_cons, ih, mLit]
    cases hp : pfx pat (c :: cs) <;> simp

theorem mLit_some (pat repl s rp rs : List Char)
    (h : mLit pat repl s = some (rp, rs)) :
    pfx pat s = true ∧ rp = repl ∧ rs = s.drop pat.length := by
  by_cases hp : pfx pat s = true
  · simp [mLit, hp] at h
    exact ⟨hp, h.1.symm, h.2.symm⟩
  · simp [mLit, hp] at h

theorem mLit_none (pat repl s : List Char) (h : pfx pat s = false) :
    mLit pat repl s = none := by
  simp [mLit, h]

/-! ## takeWhile and dropWhile support -/

theorem takeWhile_all (p : Char → Bool) (l : List Char) :
    ∀ a ∈ l.takeWhile p, p a = true := by
  induction l with
  | nil => simp
  | cons c cs ih =>
    intro a ha
    by_cases hc : p c = true
    · rw [List.takeWhile_cons, if_pos hc] at ha
      rcases List.mem_cons.mp ha with rfl | h
      · exact hc
      · exact ih a h
    · rw [List.takeWhile_cons, if_neg hc] at ha
      simp at ha

theorem takeWhile_append_stop (p : Char → Bool) (z : List Char) (d : Char)
    (w : List Char) (hz : ∀ a ∈ z, p a = true) (hd : p d = false) :
    (z ++ d :: w).takeWhile p = z ∧ (z ++ d :: w).dropWhile p = d :: w := by
  induction z with
  | nil => simp [List.takeWhile_cons, List.dropWhile_cons, hd]
  | cons a as ih =>
    have ha : p a = true := hz a (List.mem_cons_self a as)
    have has : ∀ b ∈ as, p b = true := fun b hb => hz b (List.mem_cons_of_mem a hb)
    obtain ⟨ih1, ih2⟩ := ih has
    constructor
    · simp only [List.cons_append, List.takeWhile_cons, if_pos ha, ih1]
    · simp only [List.cons_append, List.dropWhile_cons, ha, if_pos, ih2]

theorem dropWhile_head_false (p : Char → Bool) (s : List Char) (d : Char)
    (w : List Char) (h : s.dropWhile p = d :: w) : p d = false := by
  induction s with
  | nil => simp at h
  | cons c cs ih =>
    rw [List.dropWhile_cons] at h
    by_cases hc : p c = true
    · rw [if_pos hc] at h; exact ih h
    · rw [if_neg hc] at h
      cases h
      revert hc; cases p d <;> simp

theorem dropWhile_length_le (p : Char → Bool) (s : List Char) :
    (s.dropWhile p).length ≤ s.length := by
  induction s with
  | nil => simp
  | cons c cs ih =>
    rw [List.dropWhile_cons]
    by_cases hc : p c = true
    · rw [if_pos hc]; exact Nat.le_succ_of_le ih
    · rw [if_neg hc]

/-! ## blocks2 lemmas -/

theorem blocks2_pfx_false (h1 h2 : Char) (v2 w : List Char)
    (hb : blocks2 h1 h2 v2 = true) (hne : v2 ≠ []) :
    pfx v2 (h1 :: h2 :: w) = false := by
  cases v2 with
  | nil => exact absurd rfl hne
  | cons a v1 =>
    cases v1 with
    | nil =>
      simp only [blocks2, Bool.not_eq_true'] at hb
      simp [pfx_cons_cons, hb]
    | cons b v0 =>
      simp only [blocks2, Bool.and_eq_true, Bool.not_eq_true',
        Bool.and_eq_false_iff] at hb
      rcases hb.1 with h | h
      · simp [pfx_cons_cons, h]
      · simp [pfx_cons_cons, h]

theorem blocks2_tail (h1 h2 : Char) (a : Char) (l : List Char)
    (hb : blocks2 h1 h2 (a :: l) = true) : blocks2 h1 h2 l = true := by
  cases l with
  | nil => rfl
  | cons b r =>
    simp only [blocks2, Bool.and_eq_true] at hb
    exact hb.2

theorem blocks2_mem_tails (h1 h2 : Char) (v : List Char)
    (hb : blocks2 h1 h2 v = true) : ∀ v2 ∈ v.tails, blocks2 h1 h2 v2 = true := by
  induction v with
  | nil =>
    intro v2 hv2
    rw [List.mem_tails, List.suffix_nil] at hv2
    rw [hv2]; rfl
  | cons a l ih =>
    intro v2 hv2
    rw [List.mem_tails] at hv2
    rcases List.suffix_cons_iff.mp hv2 with rfl | h
    · exact hb
    · exact ih (blocks2_tail h1 h2 a l hb) v2 ((List.mem_tails _ _).mpr h)

theorem blocks2_append (h1 h2 : Char) (a b : List Char)
    (ha : blocks2 h1 h2 a = true) (hb : blocks2 h1 h2 b = true) :
    blocks2 h1 h2 (a ++ b) = true := by
  induction a with
  | nil => simpa using hb
  | cons x xs ih =>
    cases xs with
    | nil =>
      simp only [blocks2, Bool.not_eq_true'] at ha
      cases b with
      | nil => simpa [blocks2] using ha
      | cons b0 bs =>
        simp only [List.cons_append, List.nil_append, blocks2,
          Bool.and_eq_true, Bool.not_eq_true', Bool.and_eq_false_iff]
        exact ⟨Or.inl ha, hb⟩
    | cons y r =>
      simp only [blocks2, Bool.and_eq_true] at ha
      have := ih ha.2
      simp only [List.cons_append, blocks2, Bool.and_eq_true]
      exact ⟨ha.1, by simpa using this⟩

theorem blocks2_of_all_ne (h1 h2 : Char) (v : List Char)
    (hv : ∀ a ∈ v, a ≠ h1) : blocks2 h1 h2 v = true := by
  induction v with
  | nil => rfl
  | cons a l ih =>
    have ha := hv a (List.mem_cons_self a l)
    have hl : ∀ b ∈ l, b ≠ h1 := fun b hb => hv b (List.mem_cons_of_mem a hb)
    cases l with
    | nil => simpa [blocks2] using ha
    | cons b r =>
      simp only [blocks2, Bool.and_eq_true, Bool.not_eq_true',
        Bool.and_eq_false_iff]
      exact ⟨Or.inl (by revert ha; cases hd : a == h1 <;> simp_all), ih hl⟩

/-! ## Matcher inversion and length lemmas -/

theorem occM_concat_none (m : List Char → Option (List Char × List Char))
    (R T : List Char) (h : ∀ s' ∈ R.tails, s' ≠ [] → m (s' ++ T) = none) :
    occM m (R ++ T) = occM m T := by
  cases hocc : occM m T with
  | true => exact (occM_append_iff m R T).mpr (Or.inr hocc)
  | false =>
    by_contra hcon
    have htrue : occM m (R ++ T) = true := by
      revert hcon; cases occM m (R ++ T) <;> simp
    rcases (occM_append_iff m R T).mp htrue with ⟨s', hne, hsuf, hp⟩ | hr
    · rw [h s' ((List.mem_tails _ _).mpr hsuf) hne] at hp; simp at hp
    · rw [hocc] at hr; simp at hr

theorem mB_some (s rp rs : List Char) (h : mB s = some (rp, rs)) :
    ∃ z, s = lit1B ++ (z ++ (lit2B ++ rs)) ∧ z.all isWS = true ∧
      z.contains '\n' = true ∧ rp = replB := by
  by_cases hp : pfx lit1B s = true
  · obtain ⟨rest0, rfl⟩ := (pfx_iff_append _ _).mp hp
    have hdrop : (lit1B ++ rest0).drop 13 = rest0 := by
      rw [show (13 : Nat) = lit1B.length from rfl, List.drop_left]
    by_cases hc : ((rest0.takeWhile isWS).contains '\n' &&
        pfx lit2B (rest0.dropWhile isWS)) = true
    · have hc2 := hc
      rw [Bool.and_eq_true] at hc2
      obtain ⟨w', hw'⟩ := (pfx_iff_append _ _).mp hc2.2
      have hsome : mB (lit1B ++ rest0) = some (replB, (rest0.dropWhile isWS).drop 15) := by
        simp only [mB, hp, if_true, hdrop, hc, if_true]
      rw [h] at hsome
      injection hsome with hsome
      injection hsome with h1 h2
      refine ⟨rest0.takeWhile isWS, ?_, ?_, hc2.1, h1⟩
      · have hre : rest0 = rest0.takeWhile isWS ++ rest0.dropWhile isWS :=
          (List.takeWhile_append_dropWhile ..).symm
        rw [show rs = (rest0.dropWhile isWS).drop 15 from h2, hw',
          show (15 : Nat) = lit2B.length from rfl, List.drop_left]
        conv_lhs => rw [hre, hw']
      · rw [List.all_eq_true]
        exact takeWhile_all isWS rest0
    · exfalso
      rw [Bool.not_eq_true] at hc
      have : mB (lit1B ++ rest0) = none := by
        simp only [mB, hp, if_true, hdrop, hc, Bool.false_eq_true, if_false]
      rw [this] at h; exact Option.noConfusion h
  · exfalso
    rw [Bool.not_eq_true] at hp
    have : mB s = none := by
      simp only [mB, hp, Bool.false_eq_true, if_false]
    rw [this] at h; exact Option.noConfusion h

theorem mB_fires (z rest : List Char) (hz : z.all isWS = true)
    (hn : z.contains '\n' = true) :
    mB (lit1B ++ (z ++ (lit2B ++ rest))) = some (replB, rest) := by
  have hzall : ∀ a ∈ z, isWS a = true := List.all_eq_true.mp hz
  have e1 : pfx lit1B (lit1B ++ (z ++ (lit2B ++ rest))) = true := pfx_self_append _ _
  have e2 : (lit1B ++ (z ++ (lit2B ++ rest))).drop 13 = z ++ (lit2B ++ rest) := by
    rw [show (13 : Nat) = lit1B.length from rfl, List.drop_left]
  have hstop := takeWhile_append_stop isWS z 'o' (lit2B.tail ++ rest) hzall (by decide)
  have e3 : (z ++ (lit2B ++ rest)).takeWhile isWS = z := hstop.1
  have e4 : (z ++ (lit2B ++ rest)).dropWhile isWS = lit2B ++ rest := hstop.2
  have e5 : pfx lit2B (lit2B ++ rest) = true := pfx_self_append _ _
  have e6 : (lit2B ++ rest).drop 15 = rest := by
    rw [show (15 : Nat) = lit2B.length from rfl, List.drop_left]
  simp only [mB, e1, if_true, e2, e3, e4, hn, e5, Bool.and_self, if_true, e6]

theorem mB_some_length (c : Char) (cs rp rs : List Char)
    (h : mB (c :: cs) = some (rp, rs)) : rs.length ≤ cs.length := by
  obtain ⟨z, heq, _, _, _⟩ := mB_some (c :: cs) rp rs h
  have := congrArg List.length heq
  simp only [List.length_cons, List.length_append,
    show lit1B.length = 13 from rfl, show lit2B.length = 15 from rfl] at this
  omega

theorem mC_some (s rp rs : List Char) (h : mC s = some (rp, rs)) :
    ∃ cap, s = litPydImp ++ (cap ++ rs) ∧ cap ≠ [] ∧
      rp = litPydImp ++ cap ++ fieldIns := by
  by_cases hp : pfx litPydImp s = true
  · obtain ⟨rest0, rfl⟩ := (pfx_iff_append _ _).mp hp
    have hdrop : (litPydImp ++ rest0).drop 21 = rest0 := by
      rw [show (21 : Nat) = litPydImp.length from rfl, List.drop_left]
    by_cases hc : (rest0.takeWhile notNB).isEmpty = true
    · exfalso
      have : mC (litPydImp ++ rest0) = none := by
        simp only [mC, hp, if_true, hdrop, hc, if_true]
      rw [this] at h; exact Option.noConfusion h
    · rw [Bool.not_eq_true] at hc
      have hsome : mC (litPydImp ++ rest0) =
          some (litPydImp ++ rest0.takeWhile notNB ++ fieldIns,
            rest0.dropWhile notNB) := by
        simp only [mC, hp, if_true, hdrop, hc, Bool.false_eq_true, if_false]
      rw [h] at hsome
      injection hsome with hsome
      injection hsome with h1 h2
      refine ⟨rest0.takeWhile notNB, ?_, ?_, h1⟩
      · rw [h2, List.takeWhile_append_dropWhile]
      · intro hnil
        rw [hnil] at hc
        simp at hc
  · exfalso
    rw [Bool.not_eq_true] at hp
    have : mC s = none := by
      simp only [mC, hp, Bool.false_eq_true, if_false]
    rw [this] at h; exact Option.noConfusion h

theorem mC_some_length (c : Char) (cs rp rs : List Char)
    (h : mC (c :: cs) = some (rp, rs)) : rs.length ≤ cs.length := by
  obtain ⟨cap, heq, hne, _⟩ := mC_some (c :: cs) rp rs h
  have := congrArg List.length heq
  simp only [List.length_cons, List.length_append] at this
  have : 1 ≤ cap.length := by
    cases cap with
    | nil => exact absurd rfl hne
    | cons a l => simp
  omega

theorem mLit_some_length (pat repl : List Char) (hpat : pat ≠ [])
    (c : Char) (cs rp rs : List Char)
    (h : mLit pat repl (c :: cs) = some (rp, rs)) : rs.length ≤ cs.length := by
  obtain ⟨_, _, hrs⟩ := mLit_some pat repl (c :: cs) rp rs h
  rw [hrs]
  have : 1 ≤ pat.length := by
    cases pat with
    | nil => exact absurd rfl hpat
    | cons a l => simp
  simp only [List.length_drop, List.length_cons]
  omega

theorem mB_none_of_head (c : Char) (t : List Char) (h : c ≠ 'c') :
    mB (c :: t) = none := by
  have hfalse : pfx lit1B (c :: t) = false := by
    show pfx ('c' :: lit1B.tail) (c :: t) = false
    exact pfx_cons_ne 'c' c _ _ (fun he => h he.symm)
  simp only [mB, hfalse, Bool.false_eq_true, if_false]

theorem mB_replB_append (T : List Char) : mB (replB ++ T) = none := by
  have hassoc : replB ++ T =
      lit1B ++ (('\n' :: ([' ', ' ', ' ', ' ', ' ', ' ', ' ', ' '] ++
        ['f', 'r', 'o', 'm', '_', 'a', 't', 't', 'r', 'i', 'b', 'u', 't', 'e', 's',
         ' ', '=', ' ', 'T', 'r', 'u', 'e'])) ++ T) := by
    simp [replB, List.append_assoc]
  have e1 : pfx lit1B (replB ++ T) = true := by
    rw [hassoc]; exact pfx_self_append _ _
  have e2 : (replB ++ T).drop 13 =
      ('\n' :: ([' ', ' ', ' ', ' ', ' ', ' ', ' ', ' '] ++
        ['f', 'r', 'o', 'm', '_', 'a', 't', 't', 'r', 'i', 'b', 'u', 't', 'e', 's',
         ' ', '=', ' ', 'T', 'r', 'u', 'e'])) ++ T := by
    rw [hassoc, show (13 : Nat) = lit1B.length from rfl, List.drop_left]
  have hstop := takeWhile_append_stop isWS
    ('\n' :: [' ', ' ', ' ', ' ', ' ', ' ', ' ', ' ']) 'f'
    (['r', 'o', 'm', '_', 'a', 't', 't', 'r', 'i', 'b', 'u', 't', 'e', 's',
      ' ', '=', ' ', 'T', 'r', 'u', 'e'] ++ T)
    (by decide) (by decide)
  have e3 : (('\n' :: ([' ', ' ', ' ', ' ', ' ', ' ', ' ', ' '] ++
      ['f', 'r', 'o', 'm', '_', 'a', 't', 't', 'r', 'i', 'b', 'u', 't', 'e', 's',
       ' ', '=', ' ', 'T', 'r', 'u', 'e'])) ++ T).takeWhile isWS =
      '\n' :: [' ', ' ', ' ', ' ', ' ', ' ', ' ', ' '] := hstop.1
  have e4 : (('\n' :: ([' ', ' ', ' ', ' ', ' ', ' ', ' ', ' '] ++
      ['f', 'r', 'o', 'm', '_', 'a', 't', 't', 'r', 'i', 'b', 'u', 't', 'e', 's',
       ' ', '=', ' ', 'T', 'r', 'u', 'e'])) ++ T).dropWhile isWS =
      'f' :: (['r', 'o', 'm', '_', 'a', 't', 't', 'r', 'i', 'b', 'u', 't', 'e', 's',
        ' ', '=', ' ', 'T', 'r', 'u', 'e'] ++ T) := hstop.2
  have e5 : pfx lit2B ('f' :: (['r', 'o', 'm', '_', 'a', 't', 't', 'r', 'i', 'b',
      'u', 't', 'e', 's', ' ', '=', ' ', 'T', 'r', 'u', 'e'] ++ T)) = false := by
    show pfx ('o' :: lit2B.tail) _ = false
    exact pfx_cons_ne 'o' 'f' _ _ (by decide)
  simp only [mB, e1, if_true, e2, e3, e4, e5, Bool.and_false,
    Bool.false_eq_true, if_false]

theorem occM_mB_fieldIns (T : List Char) :
    occM mB (fieldIns ++ T) = occM mB T := by
  apply occM_concat_none
  intro s' hs' hne
  cases s' with
  | nil => exact absurd rfl hne
  | cons a t =>
    have hsub : a ∈ fieldIns :=
      ((List.mem_tails _ _).mp hs').subset (List.mem_cons_self a t)
    have hc : 'c' ∉ fieldIns := by decide
    exact mB_none_of_head a (t ++ T) (fun he => hc (he ▸ hsub))

theorem occM_mB_replB (T : List Char) :
    occM mB (replB ++ T) = occM mB T := by
  apply occM_concat_none
  intro s' hs' hne
  by_cases hfull : s' = replB
  · rw [hfull]; exact mB_replB_append T
  · cases s' with
    | nil => exact absurd rfl hne
    | cons a t =>
      have honly : ∀ s2 ∈ replB.tails, s2.head? = some 'c' → s2 = replB := by
        decide
      have hne2 : a ≠ 'c' := by
        intro rfl2
        exact hfull (honly (a :: t) hs' (by rw [rfl2]; rfl))
      exact mB_none_of_head a (t ++ T) hne2

/-! ## No-match-in-output and preservation lemmas for the pydantic fixer -/

/-- The regex= substitution leaves no occurrence of its own pattern in its
output. -/
theorem scanA_no_occ : ∀ (f : Nat) (s : List Char), s.length ≤ f →
    occ patRegexEq (scanF (mLit patRegexEq replPatternEq) f s) = false := by
  intro f
  induction f with
  | zero =>
    intro s hs
    rw [List.length_eq_zero.mp (Nat.le_zero.mp hs)]
    rfl
  | succ f ih =>
    intro s hs
    cases s with
    | nil => rfl
    | cons c cs =>
      have hlen : cs.length ≤ f := by
        simp only [List.length_cons] at hs; omega
      cases hm : mLit patRegexEq replPatternEq (c :: cs) with
      | some pr =>
        obtain ⟨rp, rs⟩ := pr
        obtain ⟨hp, hrp, hrs⟩ := mLit_some patRegexEq replPatternEq (c :: cs) rp rs hm
        subst hrp
        rw [scanF_cons_some _ f c cs _ _ hm,
          occ_concat_split_false patRegexEq replPatternEq _ (by decide) (by decide)]
        apply ih
        rw [hrs]
        simp only [List.length_drop, List.length_cons,
          show patRegexEq.length = 6 from rfl]
        omega
      | none =>
        rw [scanF_cons_none _ f c cs hm]
        cases hval : pfx patRegexEq (c :: scanF (mLit patRegexEq replPatternEq) f cs) with
        | false => rw [occ_cons, hval, ih cs hlen]; rfl
        | true =>
          exfalso
          rw [show patRegexEq = 'r' :: ['e', 'g', 'e', 'x', '='] from rfl,
            pfx_cons_cons, Bool.and_eq_true, beq_iff_eq] at hval
          obtain ⟨hcr, hpfx⟩ := hval
          obtain ⟨rr, hrr⟩ := (pfx_iff_append _ _).mp hpfx
          obtain ⟨r2, hr2⟩ := scanF_transport (mLit patRegexEq replPatternEq) f cs
            ['e', 'g', 'e', 'x', '='] rr
            (by
              intro c' cs' rp' rs' hm' v2 hv2 hne w
              obtain ⟨_, hrp', _⟩ := mLit_some patRegexEq replPatternEq (c' :: cs') rp' rs' hm'
              subst hrp'
              have hlen2 : v2.length ≤ replPatternEq.length :=
                le_trans ((List.mem_tails _ _).mp hv2).length_le (by decide)
              rw [pfx_append_of_le v2 replPatternEq w hlen2]
              exact ((by decide :
                ∀ v3 ∈ (['e', 'g', 'e', 'x', '='] : List Char).tails,
                  v3 = [] ∨ pfx v3 replPatternEq = false) v2 hv2).resolve_left hne)
            hrr
          have hfire : pfx patRegexEq (c :: cs) = true := by
            rw [← hcr, hr2]
            exact pfx_self_append patRegexEq r2
          have : mLit patRegexEq replPatternEq (c :: cs) =
              some (replPatternEq, (c :: cs).drop patRegexEq.length) := by
            simp [mLit, hfire]
          rw [hm] at this
          exact Option.noConfusion this

/-- The Config-class substitution preserves absence of regex=. -/
theorem scanB_preserves_noA : ∀ (f : Nat) (s : List Char), s.length ≤ f →
    occ patRegexEq s = false → occ patRegexEq (scanF mB f s) = false := by
  intro f
  induction f with
  | zero =>
    intro s hs h
    rw [List.length_eq_zero.mp (Nat.le_zero.mp hs)]
    rfl
  | succ f ih =>
    intro s hs h
    cases s with
    | nil => rfl
    | cons c cs =>
      have hlen : cs.length ≤ f := by
        simp only [List.length_cons] at hs; omega
      have hcomp : pfx patRegexEq (c :: cs) = false ∧ occ patRegexEq cs = false := by
        rw [occ_cons, Bool.or_eq_false_iff] at h
        exact h
      cases hm : mB (c :: cs) with
      | some pr =>
        obtain ⟨rp, rs⟩ := pr
        obtain ⟨z, heq, hz, hzn, hrp⟩ := mB_some (c :: cs) rp rs hm
        subst hrp
        rw [scanF_cons_some mB f c cs replB rs hm,
          occ_concat_split_false patRegexEq replB _ (by decide) (by decide)]
        have h1 := occ_append_none_right patRegexEq lit1B _ (heq ▸ h)
        have h2 := occ_append_none_right patRegexEq z _ h1
        have h3 := occ_append_none_right patRegexEq lit2B _ h2
        exact ih rs (le_trans (mB_some_length c cs replB rs hm) hlen) h3
      | none =>
        rw [scanF_cons_none mB f c cs hm]
        cases hval : pfx patRegexEq (c :: scanF mB f cs) with
        | false => rw [occ_cons, hval, ih cs hlen hcomp.2]; rfl
        | true =>
          exfalso
          rw [show patRegexEq = 'r' :: ['e', 'g', 'e', 'x', '='] from rfl,
            pfx_cons_cons, Bool.and_eq_true, beq_iff_eq] at hval
          obtain ⟨hcr, hpfx⟩ := hval
          obtain ⟨rr, hrr⟩ := (pfx_iff_append _ _).mp hpfx
          obtain ⟨r2, hr2⟩ := scanF_transport mB f cs ['e', 'g', 'e', 'x', '='] rr
            (by
              intro c' cs' rp' rs' hm' v2 hv2 hne w
              obtain ⟨z', _, _, _, hrp'⟩ := mB_some (c' :: cs') rp' rs' hm'
              subst hrp'
              have hlen2 : v2.length ≤ replB.length :=
                le_trans ((List.mem_tails _ _).mp hv2).length_le (by decide)
              rw [pfx_append_of_le v2 replB w hlen2]
              exact ((by decide :
                ∀ v3 ∈ (['e', 'g', 'e', 'x', '='] : List Char).tails,
                  v3 = [] ∨ pfx v3 replB = false) v2 hv2).resolve_left hne)
            hrr
          have hfire : pfx patRegexEq (c :: cs) = true := by
            rw [← hcr, hr2]
            exact pfx_self_append patRegexEq r2
          rw [hfire] at hcomp
          exact Bool.noConfusion hcomp.1

/-- The Field-appending substitution preserves absence of regex=. -/
theorem scanC_preserves_noA : ∀ (f : Nat) (s : List Char), s.length ≤ f →
    occ patRegexEq s = false → occ patRegexEq (scanF mC f s) = false := by
  intro f
  induction f with
  | zero =>
    intro s hs h
    rw [List.length_eq_zero.mp (Nat.le_zero.mp hs)]
    rfl
  | succ f ih =>
    intro s hs h
    cases s with
    | nil => rfl
    | cons c cs =>
      have hlen : cs.length ≤ f := by
        simp only [List.length_cons] at hs; omega
      have hcomp : pfx patRegexEq (c :: cs) = false ∧ occ patRegexEq cs = false := by
        rw [occ_cons, Bool.or_eq_false_iff] at h
        exact h
      cases hm : mC (c :: cs) with
      | some pr =>
        obtain ⟨rp, rs⟩ := pr
        obtain ⟨cap, heq, hcapne, hrp⟩ := mC_some (c :: cs) rp rs hm
        subst hrp
        rw [scanF_cons_some mC f c cs _ rs hm]
        have hassoc : (litPydImp ++ cap ++ fieldIns) ++ scanF mC f rs =
            (litPydImp ++ cap) ++ (fieldIns ++ scanF mC f rs) := by
          simp [List.append_assoc]
        rw [hassoc]
        have hU : (c :: cs) = (litPydImp ++ cap) ++ rs := by
          rw [heq, List.append_assoc]
        have hrs : occ patRegexEq rs = false := by
          have h1 := occ_append_none_right patRegexEq litPydImp _ (heq ▸ h)
          exact occ_append_none_right patRegexEq cap _ h1
        have hT : occ patRegexEq (scanF mC f rs) = false :=
          ih rs (le_trans (mC_some_length c cs _ rs hm) hlen) hrs
        cases hocc : occ patRegexEq
            ((litPydImp ++ cap) ++ (fieldIns ++ scanF mC f rs)) with
        | false => rfl
        | true =>
          exfalso
          rcases (occ_append_iff _ _ _).mp hocc with ⟨s', hne, hsuf, hp⟩ | hr
          · rcases le_or_lt patRegexEq.length s'.length with hge | hlt
            · rw [pfx_append_of_le _ _ _ hge] at hp
              have hocc2 : occ patRegexEq ((litPydImp ++ cap) ++ rs) = true := by
                refine (occ_append_iff _ _ _).mpr (Or.inl ⟨s', hne, hsuf, ?_⟩)
                rw [pfx_append_of_le _ _ _ hge]
                exact hp
              rw [← hU] at hocc2
              rw [hocc2] at h
              exact Bool.noConfusion h
            · obtain ⟨p2, hpeq, hp2ne, hp2⟩ :=
                pfx_append_split patRegexEq s' _ hlt hp
              cases p2 with
              | nil => exact hp2ne rfl
              | cons a p2' =>
                have ha : a = ',' := by
                  rw [show fieldIns ++ scanF mC f rs =
                    ',' :: ([' ', 'F', 'i', 'e', 'l', 'd'] ++ scanF mC f rs) from rfl,
                    pfx_cons_cons, Bool.and_eq_true, beq_iff_eq] at hp2
                  exact hp2.1
                have hmem : a ∈ patRegexEq := by
                  rw [hpeq]
                  exact List.mem_append_right s' (List.mem_cons_self a p2')
                rw [ha] at hmem
                exact (by decide : ',' ∉ patRegexEq) hmem
          · rw [occ_concat_split_false patRegexEq fieldIns _ (by decide) (by decide),
              hT] at hr
            exact Bool.noConfusion hr
      | none =>
        rw [scanF_cons_none mC f c cs hm]
        cases hval : pfx patRegexEq (c :: scanF mC f cs) with
        | false => rw [occ_cons, hval, ih cs hlen hcomp.2]; rfl
        | true =>
          exfalso
          rw [show patRegexEq = 'r' :: ['e', 'g', 'e', 'x', '='] from rfl,
            pfx_cons_cons, Bool.and_eq_true, beq_iff_eq] at hval
          obtain ⟨hcr, hpfx⟩ := hval
          obtain ⟨rr, hrr⟩ := (pfx_iff_append _ _).mp hpfx
          obtain ⟨r2, hr2⟩ := scanF_transport mC f cs ['e', 'g', 'e', 'x', '='] rr
            (by
              intro c' cs' rp' rs' hm' v2 hv2 hne w
              obtain ⟨cap', _, _, hrp'⟩ := mC_some (c' :: cs') rp' rs' hm'
              subst hrp'
              cases v2 with
              | nil => exact absurd rfl hne
              | cons a t =>
                have hsub : a ∈ (['e', 'g', 'e', 'x', '='] : List Char) :=
                  ((List.mem_tails _ _).mp hv2).subset (List.mem_cons_self a t)
                have haf : a ≠ 'f' := fun h2 =>
                  (by decide : 'f' ∉ (['e', 'g', 'e', 'x', '='] : List Char)) (h2 ▸ hsub)
                exact pfx_cons_ne a 'f' t _ haf)
            hrr
          have hfire : pfx patRegexEq (c :: cs) = true := by
            rw [← hcr, hr2]
            exact pfx_self_append patRegexEq r2
          rw [hfire] at hcomp
          exact Bool.noConfusion hcomp.1

/-- The Config-class substitution leaves no match of its own pattern in
its output. -/
theorem scanB_no_occB : ∀ (f : Nat) (s : List Char), s.length ≤ f →
    occM mB (scanF mB f s) = false := by
  intro f
  induction f with
  | zero =>
    intro s hs
    rw [List.length_eq_zero.mp (Nat.le_zero.mp hs)]
    rfl
  | succ f ih =>
    intro s hs
    cases s with
    | nil => rfl
    | cons c cs =>
      have hlen : cs.length ≤ f := by
        simp only [List.length_cons] at hs; omega
      cases hm : mB (c :: cs) with
      | some pr =>
        obtain ⟨rp, rs⟩ := pr
        obtain ⟨z, heq, hz, hzn, hrp⟩ := mB_some (c :: cs) rp rs hm
        subst hrp
        rw [scanF_cons_some mB f c cs replB rs hm, occM_mB_replB]
        exact ih rs (le_trans (mB_some_length c cs replB rs hm) hlen)
      | none =>
        rw [scanF_cons_none mB f c cs hm]
        cases hval : (mB (c :: scanF mB f cs)).isSome with
        | false => rw [occM_cons, hval, ih cs hlen]; rfl
        | true =>
          exfalso
          obtain ⟨⟨rp2, rs2⟩, hm2⟩ := Option.isSome_iff_exists.mp hval
          obtain ⟨z, heq2, hz, hzn, _⟩ := mB_some _ rp2 rs2 hm2
          have heq3 : c :: scanF mB f cs =
              'c' :: (lit1B.tail ++ (z ++ (lit2B ++ rs2))) := heq2
          injection heq3 with hc htail
          have htail2 : scanF mB f cs =
              (lit1B.tail ++ (z ++ lit2B)) ++ rs2 := by
            rw [htail]; simp [List.append_assoc]
          have hnc : 'c' ∉ lit1B.tail ++ (z ++ lit2B) := by
            intro hmem
            rcases List.mem_append.mp hmem with hmem1 | hmem2
            · exact (by decide : 'c' ∉ lit1B.tail) hmem1
            · rcases List.mem_append.mp hmem2 with hmem3 | hmem4
              · have := List.all_eq_true.mp hz 'c' hmem3
                exact Bool.noConfusion ((by decide : isWS 'c' = false) ▸ this)
              · exact (by decide : 'c' ∉ lit2B) hmem4
          obtain ⟨r2, hr2⟩ := scanF_transport mB f cs
            (lit1B.tail ++ (z ++ lit2B)) rs2
            (by
              intro c' cs' rp' rs' hm' v2 hv2 hne w
              obtain ⟨z', _, _, _, hrp'⟩ := mB_some (c' :: cs') rp' rs' hm'
              subst hrp'
              cases v2 with
              | nil => exact absurd rfl hne
              | cons a t =>
                have hsub : a ∈ lit1B.tail ++ (z ++ lit2B) :=
                  ((List.mem_tails _ _).mp hv2).subset (List.mem_cons_self a t)
                have hac : a ≠ 'c' := fun h2 => hnc (h2 ▸ hsub)
                exact pfx_cons_ne a 'c' t _ hac)
            htail2
          have hfire : mB (c :: cs) = some (replB, r2) := by
            rw [hc, hr2, show (lit1B.tail ++ (z ++ lit2B)) ++ r2 =
              lit1B.tail ++ (z ++ (lit2B ++ r2)) from by simp [List.append_assoc]]
            exact mB_fires z r2 hz hzn
          rw [hm] at hfire
          exact Option.noConfusion hfire

/-- The Field-appending substitution preserves absence of Config-class
matches. -/
theorem scanC_preserves_noB : ∀ (f : Nat) (s : List Char), s.length ≤ f →
    occM mB s = false → occM mB (scanF mC f s) = false := by
  intro f
  induction f with
  | zero =>
    intro s hs h
    rw [List.length_eq_zero.mp (Nat.le_zero.mp hs)]
    rfl
  | succ f ih =>
    intro s hs h
    cases s with
    | nil => rfl
    | cons c cs =>
      have hlen : cs.length ≤ f := by
        simp only [List.length_cons] at hs; omega
      have hcomp : (mB (c :: cs)).isSome = false ∧ occM mB cs = false := by
        rw [occM_cons, Bool.or_eq_false_iff] at h
        exact h
      cases hm : mC (c :: cs) with
      | some pr =>
        obtain ⟨rp, rs⟩ := pr
        obtain ⟨cap, heq, hcapne, hrp⟩ := mC_some (c :: cs) rp rs hm
        subst hrp
        rw [scanF_cons_some mC f c cs _ rs hm]
        have hassoc : (litPydImp ++ cap ++ fieldIns) ++ scanF mC f rs =
            (litPydImp ++ cap) ++ (fieldIns ++ scanF mC f rs) := by
          simp [List.append_assoc]
        rw [hassoc]
        have hU : (c :: cs) = (litPydImp ++ cap) ++ rs := by
          rw [heq, List.append_assoc]
        have hrs : occM mB rs = false := by
          rw [hU] at h
          exact occM_append_none_right mB _ _ h
        have hT : occM mB (scanF mC f rs) = false :=
          ih rs (le_trans (mC_some_length c cs _ rs hm) hlen) hrs
        cases hocc : occM mB
            ((litPydImp ++ cap) ++ (fieldIns ++ scanF mC f rs)) with
        | false => rfl
        | true =>
          exfalso
          rcases (occM_append_iff _ _ _).mp hocc with ⟨s', hne, hsuf, hp⟩ | hr
          · obtain ⟨⟨rp2, rs2⟩, hm2⟩ := Option.isSome_iff_exists.mp hp
            obtain ⟨z, heqz, hz, hzn, _⟩ := mB_some _ rp2 rs2 hm2
            have heqz2 : s' ++ (fieldIns ++ scanF mC f rs) =
                (lit1B ++ (z ++ lit2B)) ++ rs2 := by
              rw [heqz]; simp [List.append_assoc]
            rcases le_or_lt (lit1B ++ (z ++ lit2B)).length s'.length with hge | hlt
            · have htake : s'.take (lit1B ++ (z ++ lit2B)).length =
                  lit1B ++ (z ++ lit2B) := by
                have := congrArg (List.take (lit1B ++ (z ++ lit2B)).length) heqz2
                rw [List.take_append_of_le_length hge, List.take_left] at this
                exact this
              obtain ⟨D, hD⟩ : ∃ D, s' = (lit1B ++ (z ++ lit2B)) ++ D := by
                refine ⟨s'.drop (lit1B ++ (z ++ lit2B)).length, ?_⟩
                have base := List.take_append_drop
                  (lit1B ++ (z ++ lit2B)).length s'
                rw [htake] at base
                exact base.symm
              have hfire2 : (mB (s' ++ rs)).isSome = true := by
                rw [hD, show ((lit1B ++ (z ++ lit2B)) ++ D) ++ rs =
                  lit1B ++ (z ++ (lit2B ++ (D ++ rs))) from by
                    simp [List.append_assoc],
                  mB_fires z _ hz hzn]
                rfl
              have hocc2 : occM mB ((litPydImp ++ cap) ++ rs) = true :=
                (occM_append_iff _ _ _).mpr (Or.inl ⟨s', hne, hsuf, hfire2⟩)
              rw [← hU] at hocc2
              rw [hocc2] at h
              exact Bool.noConfusion h
            · have htake : s' = (lit1B ++ (z ++ lit2B)).take s'.length := by
                have := congrArg (List.take s'.length) heqz2
                rw [List.take_left, List.take_append_of_le_length (le_of_lt hlt)]
                  at this
                exact this
              have hM : lit1B ++ (z ++ lit2B) =
                  s' ++ (lit1B ++ (z ++ lit2B)).drop s'.length := by
                have hM0 := (List.take_append_drop s'.length
                  (lit1B ++ (z ++ lit2B))).symm
                rw [← htake] at hM0
                exact hM0
              have hMne : (lit1B ++ (z ++ lit2B)).drop s'.length ≠ [] := by
                intro hnil
                have := congrArg List.length hnil
                simp only [List.length_drop, List.length_nil] at this
                omega
              have hcancel : fieldIns ++ scanF mC f rs =
                  (lit1B ++ (z ++ lit2B)).drop s'.length ++ rs2 := by
                apply @List.append_cancel_left _ s'
                rw [heqz2]
                conv_rhs => rw [← List.append_assoc, ← hM]
              cases hMd : (lit1B ++ (z ++ lit2B)).drop s'.length with
              | nil => exact hMne hMd
              | cons m0 M' =>
                have hm0 : m0 = ',' := by
                  rw [hMd] at hcancel
                  have : (',' : Char) :: ([' ', 'F', 'i', 'e', 'l', 'd'] ++
                      scanF mC f rs) = m0 :: (M' ++ rs2) := hcancel
                  injection this with h1 _
                  exact h1.symm
                have hmem : m0 ∈ lit1B ++ (z ++ lit2B) := by
                  rw [hM, hMd]
                  exact List.mem_append_right s' (List.mem_cons_self m0 M')
                rw [hm0] at hmem
                rcases List.mem_append.mp hmem with hmem1 | hmem2
                · exact (by decide : ',' ∉ lit1B) hmem1
                · rcases List.mem_append.mp hmem2 with hmem3 | hmem4
                  · have := List.all_eq_true.mp hz ',' hmem3
                    exact Bool.noConfusion ((by decide : isWS ',' = false) ▸ this)
                  · exact (by decide : ',' ∉ lit2B) hmem4
          · rw [occM_mB_fieldIns, hT] at hr
            exact Bool.noConfusion hr
      | none =>
        rw [scanF_cons_none mC f c cs hm]
        cases hval : (mB (c :: scanF mC f cs)).isSome with
        | false => rw [occM_cons, hval, ih cs hlen hcomp.2]; rfl
        | true =>
          exfalso
          obtain ⟨⟨rp2, rs2⟩, hm2⟩ := Option.isSome_iff_exists.mp hval
          obtain ⟨z, heq2, hz, hzn, _⟩ := mB_some _ rp2 rs2 hm2
          have heq3 : c :: scanF mC f cs =
              'c' :: (lit1B.tail ++ (z ++ (lit2B ++ rs2))) := heq2
          injection heq3 with hc htail
          have htail2 : scanF mC f cs =
              (lit1B.tail ++ (z ++ lit2B)) ++ rs2 := by
            rw [htail]; simp [List.append_assoc]
          have hb2 : blocks2 'f' 'r' (lit1B.tail ++ (z ++ lit2B)) = true := by
            refine blocks2_append 'f' 'r' _ _ (by decide)
              (blocks2_append 'f' 'r' _ _ ?_ (by decide))
            refine blocks2_of_all_ne 'f' 'r' z ?_
            intro a ha h2
            have := List.all_eq_true.mp hz 'f' (h2 ▸ ha)
            exact Bool.noConfusion ((by decide : isWS 'f' = false) ▸ this)
          obtain ⟨r2, hr2⟩ := scanF_transport mC f cs
            (lit1B.tail ++ (z ++ lit2B)) rs2
            (by
              intro c' cs' rp' rs' hm' v2 hv2 hne w
              obtain ⟨cap', _, _, hrp'⟩ := mC_some (c' :: cs') rp' rs' hm'
              subst hrp'
              have hb3 := blocks2_mem_tails 'f' 'r' _ hb2 v2 hv2
              exact blocks2_pfx_false 'f' 'r' v2 _ hb3 hne)
            htail2
          have hfireB : (mB (c :: cs)).isSome = true := by
            rw [hc, hr2, show (lit1B.tail ++ (z ++ lit2B)) ++ r2 =
              lit1B.tail ++ (z ++ (lit2B ++ r2)) from by simp [List.append_assoc]]
            rw [show ('c' : Char) :: (lit1B.tail ++ (z ++ (lit2B ++ r2))) =
              lit1B ++ (z ++ (lit2B ++ r2)) from rfl,
              mB_fires z r2 hz hzn]
            rfl
          rw [hfireB] at hcomp
          exact Bool.noConfusion hcomp.1

/-! ## Replacement shapes of the CORS matchers -/

theorem mI_some_repl (s rp rs : List Char) (h : mI s = some (rp, rs)) :
    ∃ cap, rp = litFapiImp ++ cap ++ '\n' :: corsImportLine := by
  by_cases hp : pfx litFapiImp s = true
  · by_cases hc : ((s.drop 20).takeWhile notNB).isEmpty = true
    · exfalso
      have : mI s = none := by simp only [mI, hp, if_true, hc, if_true]
      rw [this] at h; exact Option.noConfusion h
    · rw [Bool.not_eq_true] at hc
      have : mI s = some (litFapiImp ++ (s.drop 20).takeWhile notNB ++
          '\n' :: corsImportLine, (s.drop 20).dropWhile notNB) := by
        simp only [mI, hp, if_true, hc, Bool.false_eq_true, if_false]
      rw [h] at this
      injection this with this
      injection this with h1 _
      exact ⟨(s.drop 20).takeWhile notNB, h1⟩
  · exfalso
    rw [Bool.not_eq_true] at hp
    have : mI s = none := by simp only [mI, hp, Bool.false_eq_true, if_false]
    rw [this] at h; exact Option.noConfusion h

theorem mG_some_repl (s rp rs : List Char) (h : mG s = some (rp, rs)) :
    ∃ run, rp = litAppFast ++ run ++ ')' :: corsConfigIns := by
  by_cases hp : pfx litAppFast s = true
  · by_cases hc : pfx [')'] ((s.drop 14).dropWhile notRP) = true
    · have : mG s = some (litAppFast ++ (s.drop 14).takeWhile notRP ++
          ')' :: corsConfigIns, ((s.drop 14).dropWhile notRP).drop 1) := by
        simp only [mG, hp, if_true, hc, if_true]
      rw [h] at this
      injection this with this
      injection this with h1 _
      exact ⟨(s.drop 14).takeWhile notRP, h1⟩
    · exfalso
      rw [Bool.not_eq_true] at hc
      have : mG s = none := by
        simp only [mG, hp, if_true, hc, Bool.false_eq_true, if_false]
      rw [this] at h; exact Option.noConfusion h
  · exfalso
    rw [Bool.not_eq_true] at hp
    have : mG s = none := by simp only [mG, hp, Bool.false_eq_true, if_false]
    rw [this] at h; exact Option.noConfusion h

theorem mC_repl_has_field (c : Char) (cs rp rs : List Char)
    (h : mC (c :: cs) = some (rp, rs)) : occ fieldStr rp = true := by
  obtain ⟨cap, _, _, hrp⟩ := mC_some (c :: cs) rp rs h
  rw [hrp]
  exact occ_append_right fieldStr (litPydImp ++ cap) fieldIns (by decide)

theorem mI_repl_has_cors (c : Char) (cs rp rs : List Char)
    (h : mI (c :: cs) = some (rp, rs)) : occ corsK rp = true := by
  obtain ⟨cap, hrp⟩ := mI_some_repl (c :: cs) rp rs h
  rw [hrp]
  exact occ_append_right corsK (litFapiImp ++ cap) ('\n' :: corsImportLine)
    (by decide)

theorem mG_repl_has_cors (c : Char) (cs rp rs : List Char)
    (h : mG (c :: cs) = some (rp, rs)) : occ corsK rp = true := by
  obtain ⟨run, hrp⟩ := mG_some_repl (c :: cs) rp rs h
  rw [hrp]
  exact occ_append_right corsK (litAppFast ++ run) (')' :: corsConfigIns)
    (by decide)

/-! ## Idempotence of the pydantic fixer -/

/-- fix_pydantic_syntax (modelled by fix_pydantic_v2_content) is
idempotent on file contents. -/
theorem fix_pydantic_idem (X : List Char) :
    fix_pydantic_v2_content (fix_pydantic_v2_content X) =
      fix_pydantic_v2_content X := by
  have key : ∀ Y : List Char, occ patRegexEq Y = false → occM mB Y = false →
      fix_pydantic_v2_content Y =
        (if (occ gatePyd Y && !(occ fieldStr Y)) = true
          then runScan mC Y else Y) := by
    intro Y hA hB
    have h1 : runScan (mLit patRegexEq replPatternEq) Y = Y :=
      scanF_id _ _ _ (by rw [occM_mLit]; exact hA)
    have h2 : runScan mB Y = Y := scanF_id _ _ _ hB
    simp only [fix_pydantic_v2_content, h1, h2]
  have fA1 : occ patRegexEq (runScan (mLit patRegexEq replPatternEq) X) = false :=
    scanA_no_occ X.length X le_rfl
  have fA2 : occ patRegexEq
      (runScan mB (runScan (mLit patRegexEq replPatternEq) X)) = false :=
    scanB_preserves_noA _ _ le_rfl fA1
  have fB2 : occM mB
      (runScan mB (runScan (mLit patRegexEq replPatternEq) X)) = false :=
    scanB_no_occB _ _ le_rfl
  have hfix : fix_pydantic_v2_content X =
      (if (occ gatePyd (runScan mB (runScan (mLit patRegexEq replPatternEq) X)) &&
        !(occ fieldStr (runScan mB (runScan (mLit patRegexEq replPatternEq) X)))) = true
        then runScan mC (runScan mB (runScan (mLit patRegexEq replPatternEq) X))
        else runScan mB (runScan (mLit patRegexEq replPatternEq) X)) := rfl
  by_cases hg : (occ gatePyd (runScan mB (runScan (mLit patRegexEq replPatternEq) X)) &&
      !(occ fieldStr (runScan mB (runScan (mLit patRegexEq replPatternEq) X)))) = true
  · by_cases hY : runScan mC
        (runScan mB (runScan (mLit patRegexEq replPatternEq) X)) =
        runScan mB (runScan (mLit patRegexEq replPatternEq) X)
    · rw [hfix, if_pos hg, hY, key _ fA2 fB2, hY]
      exact ite_self _
    · have hfield : occ fieldStr (runScan mC
          (runScan mB (runScan (mLit patRegexEq replPatternEq) X))) = true :=
        (scanF_const_or_contains mC fieldStr
          (fun c cs rp rs hm => mC_repl_has_field c cs rp rs hm) _ _).resolve_left hY
      have fA3 : occ patRegexEq (runScan mC
          (runScan mB (runScan (mLit patRegexEq replPatternEq) X))) = false :=
        scanC_preserves_noA _ _ le_rfl fA2
      have fB3 : occM mB (runScan mC
          (runScan mB (runScan (mLit patRegexEq replPatternEq) X))) = false :=
        scanC_preserves_noB _ _ le_rfl fB2
      rw [hfix, if_pos hg, key _ fA3 fB3, hfield]
      simp
  · rw [hfix, if_neg hg, key _ fA2 fB2, if_neg hg]

/-! ## Idempotence of the CORS fixer -/

/-- add_cors_middleware (modelled by add_cors_middleware_content) is
idempotent on file contents. -/
theorem add_cors_idem (X : List Char) :
    add_cors_middleware_content (add_cors_middleware_content X) =
      add_cors_middleware_content X := by
  have hret : ∀ Y : List Char, occ corsK Y = true →
      add_cors_middleware_content Y = Y := by
    intro Y h
    simp [add_cors_middleware_content, h]
  suffices h : add_cors_middleware_content X = X ∨
      occ corsK (add_cors_middleware_content X) = true by
    rcases h with h | h
    · rw [h, h]
    · exact hret _ h
  by_cases h0 : occ corsK X = true
  · exact Or.inl (hret X h0)
  · have h0f : occ corsK X = false := by
      revert h0; cases occ corsK X <;> simp
    by_cases hgf : occ gateFapi X = true
    · by_cases hG : occ litAppFast (runScan mI X) = true
      · have hfX : add_cors_middleware_content X = runScan mG (runScan mI X) := by
          simp [add_cors_middleware_content, h0f, hgf, hG]
        rcases scanF_const_or_contains mG corsK
            (fun c cs rp rs hm => mG_repl_has_cors c cs rp rs hm)
            (runScan mI X).length (runScan mI X) with hG1 | hG1
        · rcases scanF_const_or_contains mI corsK
              (fun c cs rp rs hm => mI_repl_has_cors c cs rp rs hm)
              X.length X with hI1 | hI1
          · exact Or.inl (by rw [hfX]; exact hG1.trans hI1)
          · refine Or.inr ?_
            rw [hfX]
            show occ corsK
              (scanF mG (runScan mI X).length (runScan mI X)) = true
            rw [hG1]
            exact hI1
        · exact Or.inr (by rw [hfX]; exact hG1)
      · have hGf : occ litAppFast (runScan mI X) = false := by
          revert hG; cases occ litAppFast (runScan mI X) <;> simp
        exact Or.inl (by simp [add_cors_middleware_content, h0f, hgf, hGf])
    · have hgff : occ gateFapi X = false := by
        revert hgf; cases occ gateFapi X <;> simp
      by_cases hG : occ litAppFast X = true
      · have hfX : add_cors_middleware_content X = runScan mG X := by
          simp [add_cors_middleware_content, h0f, hgff, hG]
        rcases scanF_const_or_contains mG corsK
            (fun c cs rp rs hm => mG_repl_has_cors c cs rp rs hm)
            X.length X with hG1 | hG1
        · exact Or.inl (by rw [hfX]; exact hG1)
        · exact Or.inr (by rw [hfX]; exact hG1)
      · have hGf : occ litAppFast X = false := by
          revert hG; cases occ litAppFast X <;> simp
        exact Or.inl (by simp [add_cors_middleware_content, h0f, hgff, hGf])

/-! ## Claim 1: Artifact Validator result semantics -/

/-- C1.  The Artifact Validator fails exactly when some critical path is
absent; the result equals the conjunction of the critical paths' presence,
so it is independent of the optional paths: when every critical path
exists the validator succeeds however many optional paths are absent. -/
theorem claim1_validator_fails_iff_critical_missing (e : String → Bool) :
    (validate_complete_app e = false ↔ ∃ p ∈ core_files, e p = false) ∧
    validate_complete_app e = core_files.all e := by
  constructor
  · rw [show validate_complete_app e = core_files.all e from
      filter_not_isEmpty_eq_all e core_files,
      ← Bool.not_eq_true, List.all_eq_true]
    push_neg
    simp only [Bool.not_eq_true]
  · exact filter_not_isEmpty_eq_all e core_files

/-! ## Claim 4: validator vs harness file check -/

/-- C4 counterexample.  On the filesystem that contains exactly the
validator's six critical files, the Artifact Validator succeeds while the
Smoke Test Harness file check fails: the two checks do not implement the
same check over the same expected-file set, and they disagree on the
overall pass/fail verdict on this filesystem state. -/
theorem claim4_counterexample :
    validate_complete_app (fun p => core_files.contains p) = true ∧
    test_file_structure (fun p => core_files.contains p) = false := by
  constructor <;> decide

/-- C4 amended.  Both checks test file presence, but over different
required sets: the harness requires the validator's six critical files
plus four more (backend/database.py, backend/security.py,
frontend/styles/main.css, frontend/js/app.js).  Hence a harness pass
implies a validator pass, but not conversely. -/
theorem claim4_harness_refines_validator (e : String → Bool) :
    test_file_structure e = true ↔
      (validate_complete_app e = true ∧ harness_extra_files.all e = true) := by
  rw [show test_file_structure e = expected_files.all e from
      filter_not_isEmpty_eq_all e expected_files,
    show validate_complete_app e = core_files.all e from
      filter_not_isEmpty_eq_all e core_files]
  simp only [List.all_eq_true, expected_files, core_files, harness_extra_files]
  simp only [List.mem_cons, List.not_mem_nil, or_false, forall_eq_or_imp, forall_eq]
  tauto

/-! ## Claim 6: backend startup check terminates the child process -/

/-- C6.  On every execution path of test_backend_startup in which the
backend process is spawned — liveness probe succeeding with 200, any other
status code, or a raised RequestException (connection failure or timeout) —
process.terminate() is called before the function returns; the check
succeeds exactly on a 200 response; and when backend/main.py is absent no
process is spawned at all. -/
theorem claim6_startup_always_terminates_child (probe : ProbeOutcome) :
    (test_backend_startup true probe).spawned = true ∧
    (test_backend_startup true probe).terminated = true ∧
    ((test_backend_startup true probe).success = true ↔ probe = .status 200) ∧
    (test_backend_startup false probe).spawned = false ∧
    (test_backend_startup false probe).terminated = false := by
  cases probe with
  | status code => simp [test_backend_startup]
  | requestFailed => simp [test_backend_startup]

/-! ## Claim 7: the report runs every check and is their conjunction -/

/-- C7.  generate_test_report records one result for every one of its
checks, whatever each outcome is (a returned boolean or a raised
exception), preserving their names and order, and its overall verdict is
true iff every recorded result is true. -/
theorem claim7_report_runs_all_checks_conjunction
    (tests : List (String × CheckOutcome)) :
    (generate_test_report tests).1.length = tests.length ∧
    (generate_test_report tests).1.map Prod.fst = tests.map Prod.fst ∧
    ((generate_test_report tests).2 = true ↔
      ∀ r ∈ (generate_test_report tests).1, r.2 = true) := by
  refine ⟨by simp [generate_test_report], by simp [generate_test_report], ?_⟩
  simp only [generate_test_report, beq_iff_eq]
  rw [show (tests.map (fun t => (t.1, recordCheck t.2))).length =
      ((tests.map (fun t => (t.1, recordCheck t.2))).map Prod.snd).length by simp]
  rw [List.count_eq_length]
  constructor
  · intro h r hr
    exact (h r.2 (List.mem_map_of_mem Prod.snd hr)).symm
  · intro h b hb
    obtain ⟨r, hr, rfl⟩ := List.mem_map.mp hb
    exact (h r hr).symm

/-! ## Claim 3: Pipeline Runner completeness (spec-modelled) -/

theorem run_pipeline_aux_tasks (invoke : String → String → String × Bool)
    (ts : List TaskDescriptor) :
    ∀ acc, (run_pipeline_aux invoke acc ts).map RunEntry.task =
      acc.map RunEntry.task ++ ts.map TaskDescriptor.name := by
  induction ts with
  | nil => intro acc; simp [run_pipeline_aux]
  | cons t ts ih =>
    intro acc
    simp only [run_pipeline_aux, ih, List.map_append, List.map_cons, List.map_nil]
    simp

/-- C3 (spec-modelled).  For every task list and every behaviour of the
invocation oracle — including any pattern of task failures by timeout or
retry exhaustion, which surface as success = false — the Pipeline Runner
produces exactly one result entry per task, in order: a failed task is
recorded and execution continues with every later task, never aborting the
run. -/
theorem claim3_runner_records_every_task
    (invoke : String → String → String × Bool) (tasks : List TaskDescriptor) :
    (run_pipeline invoke tasks).map RunEntry.task =
      tasks.map TaskDescriptor.name ∧
    (run_pipeline invoke tasks).length = tasks.length := by
  have h := run_pipeline_aux_tasks invoke tasks []
  simp only [List.map_nil, List.nil_append] at h
  refine ⟨h, ?_⟩
  have := congrArg List.length h
  simpa using this

/-! ## Claim 9: non-trivial file classification -/

/-- C9 counterexample.  The two contents below have the same raw length
(106) and the same raw number of line breaks (6), yet the code classifies
the first as incomplete (its six line breaks are trailing whitespace, so
the stripped content has no line break) and the second as non-trivial.  So
the classification is not determined by the raw content length and raw
line-break count, and the claimed equivalence fails for every choice of
fixed thresholds. -/
theorem claim9_counterexample :
    ("aaaaaaaaaaaaaaaaaaaaaaaaaaaaaaaaaaaaaaaaaaaaaaaaaaaaaaaaaaaaaaaaaaaaaaaaaaaaaaaaaaaaaaaaaaaaaaaaaaaa\n\n\n\n\n\n".toList.length =
      "aaaaaaaaaaaaaaaa\naaaaaaaaaaaaaaaa\naaaaaaaaaaaaaaaa\naaaaaaaaaaaaaaaa\naaaaaaaaaaaaaaaa\naaaaaaaaaaaaaaaa\naaaa".toList.length) ∧
    ("aaaaaaaaaaaaaaaaaaaaaaaaaaaaaaaaaaaaaaaaaaaaaaaaaaaaaaaaaaaaaaaaaaaaaaaaaaaaaaaaaaaaaaaaaaaaaaaaaaaa\n\n\n\n\n\n".toList.count '\n' =
      "aaaaaaaaaaaaaaaa\naaaaaaaaaaaaaaaa\naaaaaaaaaaaaaaaa\naaaaaaaaaaaaaaaa\naaaaaaaaaaaaaaaa\naaaaaaaaaaaaaaaa\naaaa".toList.count '\n') ∧
    nonTrivialFile "aaaaaaaaaaaaaaaaaaaaaaaaaaaaaaaaaaaaaaaaaaaaaaaaaaaaaaaaaaaaaaaaaaaaaaaaaaaaaaaaaaaaaaaaaaaaaaaaaaaa\n\n\n\n\n\n".toList = false ∧
    nonTrivialFile "aaaaaaaaaaaaaaaa\naaaaaaaaaaaaaaaa\naaaaaaaaaaaaaaaa\naaaaaaaaaaaaaaaa\naaaaaaaaaaaaaaaa\naaaaaaaaaaaaaaaa\naaaa".toList = true := by
  refine ⟨by decide, by decide, by decide, by decide⟩

/-- C9 amended.  The non-trivial classification (implemented by
complete_incomplete_files in the repair script; the Artifact Validator
itself checks only path existence) applies to the whitespace-stripped
content: a file is non-trivial iff its stripped content has at least 100
characters (exceeds 99) and at least 5 line breaks (exceeds 4); a present
file failing either bound is classified incomplete. -/
theorem claim9_nontrivial_iff_stripped_thresholds (X : List Char) :
    nonTrivialFile X = true ↔
      (100 ≤ (pyStrip X).length ∧ 5 ≤ (pyStrip X).count '\n') := by
  simp only [nonTrivialFile, file_appears_incomplete, Bool.not_eq_true',
    Bool.or_eq_false_iff, decide_eq_false_iff_not, Nat.not_lt]

/-! ## Claim 10: the requirements fixer writes a fixed manifest -/

/-- C10.  For every prior content of backend/requirements.txt, the
manifest fixer leaves the file containing exactly the fixed header comment
followed by the nine essential package lines; the result does not depend
on the prior content. -/
theorem claim10_requirements_fixer_constant (X Y : List Char) :
    fix_backend_requirements_content X =
      (requirements_header ++
        String.join (essential_packages.map (fun p => p ++ "\n"))).toList ∧
    fix_backend_requirements_content X = fix_backend_requirements_content Y ∧
    essential_packages.length = 9 :=
  ⟨rfl, rfl, rfl⟩

/-! ## Claim 2 counterexample: the import fixer is not idempotent -/

/-- C2 counterexample.  backend/main.py is in the candidate set of
fix_backend_imports.  Starting from the content
from .from .import import, one application rewrites the inner match and
yields from .from import import, and a second application matches again at
the start and yields from from import import: applying the fixer's rewrite
twice differs from applying it once. -/
theorem claim2_counterexample :
    fix_backend_imports_content
        (fix_backend_imports_content "from .from .import import".toList) ≠
      fix_backend_imports_content "from .from .import import".toList := by
  decide

/-- C2 amended.  Every Post-Generation Repair fixer except
fix_backend_imports is idempotent: the manifest fixer and the run-script
creator write fixed text (so a second application writes the same text),
the pydantic fixer and the CORS fixer satisfy repair(repair(X)) =
repair(X) for every content X, and the remaining fixers
(fix_database_models, complete_incomplete_files,
install_backend_dependencies) never modify any file, so their content
rewrite is the identity. -/
theorem claim2_other_fixers_idempotent (X : List Char) (fs : PyFS)
    (venv pip : Bool) :
    fix_backend_requirements_content (fix_backend_requirements_content X) =
      fix_backend_requirements_content X ∧
    fix_pydantic_v2_content (fix_pydantic_v2_content X) =
      fix_pydantic_v2_content X ∧
    add_cors_middleware_content (add_cors_middleware_content X) =
      add_cors_middleware_content X ∧
    create_run_script_content (create_run_script_content X) =
      create_run_script_content X ∧
    (∃ b, fix_database_models fs = .ok (fs, b)) ∧
    (∃ b, complete_incomplete_files fs = .ok (fs, b)) ∧
    (∃ b, install_backend_dependencies venv pip fs = .ok (fs, b)) := by
  refine ⟨rfl, fix_pydantic_idem X, add_cors_idem X, rfl, ?_, ⟨_, rfl⟩, ?_⟩
  · cases h1 : readFile fs "backend/models.py" with
    | none => exact ⟨false, by simp [fix_database_models, h1]⟩
    | some mc =>
      cases h2 : occ userClassMarker mc with
      | false => exact ⟨false, by simp [fix_database_models, h1, h2]⟩
      | true =>
        cases h3 : readFile fs "backend/database.py" with
        | none => exact ⟨true, by simp [fix_database_models, h1, h2, h3]⟩
        | some dbc =>
          cases h4 : occ declBaseMarker dbc with
          | false => exact ⟨false, by simp [fix_database_models, h1, h2, h3, h4]⟩
          | true => exact ⟨true, by simp [fix_database_models, h1, h2, h3, h4]⟩
  · cases h1 : readFile fs "backend/requirements.txt" with
    | none => exact ⟨false, by simp [install_backend_dependencies, h1]⟩
    | some c =>
      cases h2 : venv with
      | false => exact ⟨false, by simp [install_backend_dependencies, h1, h2]⟩
      | true => exact ⟨pip, by simp [install_backend_dependencies, h1, h2]⟩

/-! ## Claim 5: fixer behaviour on absent targets -/

/-- C5 counterexample.  On the empty filesystem every fixer's target is
absent, yet running the repair script's main raises: create_run_script
does not skip — it opens backend/run.py for writing unconditionally, and
with the backend directory missing the open raises FileNotFoundError,
aborting main. -/
theorem claim5_counterexample :
    run_post_generation_fixes true true ⟨[], []⟩ = Except.error () := rfl

/-- C5 amended.  Every fixer that patches an existing file
(fix_backend_requirements, fix_backend_imports, fix_pydantic_syntax,
add_cors_middleware, fix_database_models, complete_incomplete_files,
install_backend_dependencies) is a no-op on an absent target: it returns
its report without raising and without modifying any file
(complete_incomplete_files reports True, the others False).  The
exception is create_run_script, which is a creator, not a patcher: it
always writes backend/run.py, and raises FileNotFoundError when the
backend directory does not exist. -/
theorem claim5_absent_target_no_op (fs : PyFS) (venv pip : Bool) :
    (readFile fs "backend/requirements.txt" = none →
      fix_backend_requirements fs = .ok (fs, false)) ∧
    (readFile fs "backend/main.py" = none →
      readFile fs "backend/security.py" = none →
      readFile fs "backend/models.py" = none →
      readFile fs "backend/database.py" = none →
      fix_backend_imports fs = .ok (fs, false)) ∧
    (readFile fs "backend/models.py" = none →
      fix_pydantic_v2 fs = .ok (fs, false)) ∧
    (readFile fs "backend/main.py" = none →
      add_cors_middleware fs = .ok (fs, false)) ∧
    (readFile fs "backend/models.py" = none →
      fix_database_models fs = .ok (fs, false)) ∧
    (readFile fs "frontend/index.html" = none →
      readFile fs "backend/main.py" = none →
      readFile fs "backend/models.py" = none →
      complete_incomplete_files fs = .ok (fs, true)) ∧
    (readFile fs "backend/requirements.txt" = none →
      install_backend_dependencies venv pip fs = .ok (fs, false)) ∧
    (fs.dirs.contains "backend" = false → create_run_script fs = .error ()) ∧
    (fs.dirs.contains "backend" = true →
      create_run_script fs = .ok (writeFile fs "backend/run.py" run_script_text, true)) := by
  refine ⟨?_, ?_, ?_, ?_, ?_, ?_, ?_, ?_, ?_⟩
  · intro h1; simp [fix_backend_requirements, h1]
  · intro h1 h2 h3 h4
    simp [fix_backend_imports, fixImportsOne, h1, h2, h3, h4]
  · intro h1; simp [fix_pydantic_v2, h1]
  · intro h1; simp [add_cors_middleware, h1]
  · intro h1; simp [fix_database_models, h1]
  · intro h1 h2 h3
    simp [complete_incomplete_files, h1, h2, h3, List.filter_cons]
  · intro h1; simp [install_backend_dependencies, h1]
  · intro h1
    simp only [create_run_script, h1, Bool.false_eq_true, if_false]
  · intro h1
    simp only [create_run_script, h1, if_true]

/-- C5 witness: the no-op conclusions instantiated on the empty
filesystem, and the create_run_script write instantiated on the
filesystem with just a backend directory. -/
theorem claim5_witness :
    fix_backend_requirements ⟨[], []⟩ = .ok (⟨[], []⟩, false) ∧
    fix_backend_imports ⟨[], []⟩ = .ok (⟨[], []⟩, false) ∧
    fix_pydantic_v2 ⟨[], []⟩ = .ok (⟨[], []⟩, false) ∧
    add_cors_middleware ⟨[], []⟩ = .ok (⟨[], []⟩, false) ∧
    fix_database_models ⟨[], []⟩ = .ok (⟨[], []⟩, false) ∧
    complete_incomplete_files ⟨[], []⟩ = .ok (⟨[], []⟩, true) ∧
    install_backend_dependencies true true ⟨[], []⟩ = .ok (⟨[], []⟩, false) ∧
    create_run_script ⟨[], []⟩ = .error () ∧
    create_run_script ⟨["backend"], []⟩ =
      .ok (writeFile ⟨["backend"], []⟩ "backend/run.py" run_script_text, true) := by
  have h0 := claim5_absent_target_no_op ⟨[], []⟩ true true
  have h1 := claim5_absent_target_no_op ⟨["backend"], []⟩ true true
  exact ⟨h0.1 rfl, h0.2.1 rfl rfl rfl rfl, h0.2.2.1 rfl, h0.2.2.2.1 rfl,
    h0.2.2.2.2.1 rfl, h0.2.2.2.2.2.1 rfl rfl rfl, h0.2.2.2.2.2.2.1 rfl,
    h0.2.2.2.2.2.2.2.1 rfl, h1.2.2.2.2.2.2.2.2 rfl⟩

/-! ## Claim 8: entry-point exit codes -/

/-- C8 counterexample.  With setup validation passing, imports available
and no exception raised, a run that produced no files at all misses every
critical file, run_crewai_development returns None — and main still exits
with status 0, not 1. -/
theorem claim8_counterexample :
    run_crewai_development_result true false (fun _ => false) = none ∧
    run_crewai_main_exit true true false (fun _ => false) = 0 := ⟨rfl, rfl⟩

/-- C8 amended.  The setup script exits 0 iff its three fallible steps
succeed, and the test-runner script (from the project root) exits 0 iff
the overall report verdict is true; but the generation-runner script exits
1 only when pre-flight setup validation fails and exits 0 after generation
regardless of whether the critical files were produced, and the repair
script exits 0 whenever its main returns (the fixers' reported failures
never change its exit status; only an uncaught fixer exception does). -/
theorem claim8_exit_codes (pyOk venvOk depsOk : Bool)
    (tests : List (String × CheckOutcome))
    (setupOk importsOk kickoffRaises : Bool) (e : String → Bool)
    (venv pip : Bool) (fs : PyFS) (r : PyFS × List Bool) :
    (quickstart_main_exit pyOk venvOk depsOk =
      if pyOk && venvOk && depsOk then 0 else 1) ∧
    (test_app_main_exit true tests = 0 ↔ (generate_test_report tests).2 = true) ∧
    (run_crewai_main_exit setupOk importsOk kickoffRaises e =
      if setupOk then 0 else 1) ∧
    (run_post_generation_fixes venv pip fs = .ok r →
      post_generation_fixes_main_exit venv pip fs = 0) := by
  refine ⟨?_, ?_, ?_, ?_⟩
  · cases pyOk <;> cases venvOk <;> cases depsOk <;> rfl
  · simp only [test_app_main_exit, Bool.not_true, Bool.false_eq_true,
      if_false]
    cases h : (generate_test_report tests).2 <;> simp
  · simp only [run_crewai_main_exit]
    cases setupOk with
    | false => rfl
    | true =>
      by_cases h : run_crewai_development_result importsOk kickoffRaises e
          = some "complete_success" <;> simp [h]
  · intro h
    simp [post_generation_fixes_main_exit, h]

/-- C8 witness: the repair-script conclusion instantiated on the
filesystem with just a backend directory, where main completes with every
patch fixer reporting a skip. -/
theorem claim8_witness :
    post_generation_fixes_main_exit true true ⟨["backend"], []⟩ = 0 :=
  (claim8_exit_codes true true true [] true true false (fun _ => false)
    true true ⟨["backend"], []⟩
    (writeFile ⟨["backend"], []⟩ "backend/run.py" run_script_text,
      [false, false, false, false, false, true, true, false])).2.2.2 rfl

end CrewAI
